import Mathlib

set_option maxRecDepth 40000

/-!
Verification of the `slug` repository: a character-level shallow embedding of
the `fileslug` slug pipeline (src/crates/fileslug/src/lib.rs) and of the
collision-safe rename resolver (src/slugr/src/rename.rs), together with
theorems settling the specification claims.

Strings are modelled as `List Char` (sequences of Unicode scalar values); byte
positions in the Rust code correspond to UTF-8 byte counts computed with
`Char.utf8Size`.  The external collaborators (the `any_ascii` transliterator
and the Unicode character operations of the Rust standard library) are
parameters of the embedding, bundled in `UnicodeEnv`.
-/

/-- Placeholder character `'\x01'` (the `VERSION_DOT` constant in lib.rs). -/
def VERSION_DOT : Char := Char.ofNat 1

/-- UTF-8 byte length of a string, matching Rust `str::len`. -/
def utf8Len (s : List Char) : Nat := (s.map Char.utf8Size).sum

/-- Split a name at its last `'.'`: returns `(before, fromDot)` where `fromDot`
starts with that dot.  Mirrors `filename.rfind('.')` followed by slicing. -/
def splitLastDot : List Char → Option (List Char × List Char)
  | [] => none
  | c :: r =>
    match splitLastDot r with
    | some (a, b) => some (c :: a, b)
    | none => if c = '.' then some ([], c :: r) else none

/-- The compound-extension set of `split_extension`, in source order. -/
def COMPOUND : List (List Char) :=
  [".tar.gz".toList, ".tar.bz2".toList, ".tar.xz".toList, ".tar.zst".toList]

/-- Case-insensitive suffix test used for compound extensions.  The suffixes are
ASCII, so the `to_lowercase().ends_with(..)` of the source is modelled by a
characterwise ASCII lowering of the candidate window. -/
def ciEndsWith (f suf : List Char) : Bool :=
  suf.length ≤ f.length &&
    (f.drop (f.length - suf.length)).map Char.toLower == suf

/-- `split_extension` from fileslug (lib.rs lines 36-58).  Dotfiles with no
further dot yield an empty base; compound suffixes are matched
case-insensitively; otherwise the name splits at the last dot when that dot is
not at position 0. -/
def split_extension (filename : List Char) : List Char × List Char :=
  if filename.head? == some '.' && !(filename.tail.contains '.') then
    ([], filename)
  else
    match COMPOUND.find? (fun e => ciEndsWith filename e) with
    | some e => (filename.take (filename.length - e.length),
                 filename.drop (filename.length - e.length))
    | none =>
      match splitLastDot filename with
      | some (a, b) => if a.isEmpty then (filename, []) else (a, b)
      | none => (filename, [])

/-- Helper: `dropWhile` never lengthens a list. -/
theorem length_dropWhile_le (p : α → Bool) (l : List α) :
    (l.dropWhile p).length ≤ l.length :=
  (List.dropWhile_sublist p).length_le

/-- The `.digits` group loop of `preserve_version_dots` (lib.rs lines 127-140):
consumes zero or more `'.' ++ digit-run` groups, backtracking on a dot that is
not followed by a digit.  Returns `(consumed, rest, groupCount)`. -/
def eatGroups : List Char → List Char × List Char × Nat
  | [] => ([], [], 0)
  | c :: r =>
    if c = '.' then
      match r with
      | c2 :: r2 =>
        if c2.isDigit then
          let run := c2 :: r2.takeWhile Char.isDigit
          let t := eatGroups (r2.dropWhile Char.isDigit)
          (c :: (run ++ t.1), t.2.1, t.2.2 + 1)
        else ([], c :: r, 0)
      | [] => ([], [c], 0)
    else ([], c :: r, 0)
termination_by l => l.length
decreasing_by
  simp only [List.length_cons]
  have := length_dropWhile_le Char.isDigit r2
  omega

theorem eatGroups_rest_le : ∀ l : List Char, (eatGroups l).2.1.length ≤ l.length
  | [] => by rw [eatGroups.eq_def]
  | c :: [] => by
    rw [eatGroups.eq_def]
    by_cases hc : c = '.' <;> simp [hc]
  | c :: c2 :: r2 => by
    rw [eatGroups.eq_def]
    by_cases hc : c = '.'
    · simp only [hc, if_pos, if_true]
      by_cases h2 : c2.isDigit = true
      · simp only [h2, if_true]
        have ih := eatGroups_rest_le (r2.dropWhile Char.isDigit)
        have hd := length_dropWhile_le Char.isDigit r2
        simp only [List.length_cons]
        omega
      · simp [h2]
    · simp [hc]
termination_by l => l.length
decreasing_by
  have := length_dropWhile_le Char.isDigit r2
  simp only [List.length_cons]
  omega

/-- `preserve_version_dots` (lib.rs lines 111-165): protect the dots of every
`digits(.digits)+` sequence by replacing them with `VERSION_DOT`. -/
def preserve_version_dots : List Char → List Char
  | [] => []
  | c :: rest =>
    if c.isDigit then
      let run := c :: rest.takeWhile Char.isDigit
      let t := eatGroups (rest.dropWhile Char.isDigit)
      (if 1 ≤ t.2.2 then
        (run ++ t.1).map (fun x => if x = '.' then VERSION_DOT else x)
       else run ++ t.1) ++ preserve_version_dots t.2.1
    else c :: preserve_version_dots rest
termination_by l => l.length
decreasing_by
  · have h1 := eatGroups_rest_le (r.dropWhile Char.isDigit)
    have h2 := length_dropWhile_le Char.isDigit r
    simp only [List.length_cons]
    omega
  · simp

/-- Replace a dot with the placeholder character. -/
def dotToPH (c : Char) : Char := if c = '.' then VERSION_DOT else c
def headDigit (l : List Char) : Bool :=
  match l with
  | d :: _ => d.isDigit
  | [] => false
def pdAux : Bool → List Char → List Char
  | _, [] => []
  | prevDigit, c :: r =>
    if (c == '.') && prevDigit && headDigit r then VERSION_DOT :: pdAux false r
    else c :: pdAux c.isDigit r
def protectDots (l : List Char) : List Char := pdAux false l

theorem digit_ne_dot {d : Char} (h : d.isDigit = true) : d ≠ '.' := by
  intro hd; subst hd; simp [Char.isDigit] at h

theorem pdAux_digit_run (ds r : List Char) (hds : ∀ d ∈ ds, d.isDigit = true) :
    pdAux true (ds ++ r) = ds ++ pdAux true r := by
  induction ds with
  | nil => simp
  | cons d ds ih =>
    have hd : d.isDigit = true := hds d (by simp)
    have hdot : (d == '.') = false := by simp [digit_ne_dot hd]
    rw [List.cons_append, pdAux]
    simp only [hdot, Bool.false_and, if_neg, Bool.false_eq_true, not_false_iff]
    rw [hd, ih (fun x hx => hds x (by simp [hx])), List.cons_append]

def dotDigitHead (l : List Char) : Bool :=
  match l with
  | a :: d :: _ => a == '.' && d.isDigit
  | _ => false

theorem pdAux_state_irrel (l : List Char) (b b' : Bool) (h : dotDigitHead l = false) :
    pdAux b l = pdAux b' l := by
  match l with
  | [] => rfl
  | c :: r =>
    by_cases hc : c = '.'
    · subst hc
      have hr : headDigit r = false := by
        match r with
        | [] => rfl
        | d :: r' => simpa [dotDigitHead] using h
      rw [pdAux, pdAux]
      simp [hr]
    · rw [pdAux, pdAux]
      simp [hc]

theorem eatGroups_rest_head : ∀ l : List Char, dotDigitHead (eatGroups l).2.1 = false
  | [] => by rw [eatGroups.eq_def]; rfl
  | c :: [] => by
    rw [eatGroups.eq_def]
    by_cases hc : c = '.' <;> simp [hc, dotDigitHead]
  | c :: c2 :: r2 => by
    rw [eatGroups.eq_def]
    by_cases hc : c = '.'
    · simp only [hc, if_pos, if_true]
      by_cases h2 : c2.isDigit = true
      · simp only [h2, if_true]
        exact eatGroups_rest_head (r2.dropWhile Char.isDigit)
      · simp only [h2, if_false, Bool.false_eq_true, not_false_iff]
        simp [dotDigitHead, h2]
    · simp [hc, dotDigitHead]
termination_by l => l.length
decreasing_by
  have := length_dropWhile_le Char.isDigit r2
  simp only [List.length_cons]
  omega

theorem takeWhile_digits (l : List Char) : ∀ d ∈ l.takeWhile Char.isDigit, d.isDigit = true :=
  fun _ hd => List.mem_takeWhile_imp hd

theorem dotToPH_dot : dotToPH '.' = VERSION_DOT := rfl

theorem dotToPH_ne {c : Char} (h : c ≠ '.') : dotToPH c = c := if_neg h

theorem eatGroups_zero_groups : ∀ l : List Char,
    (eatGroups l).2.2 = 0 → (eatGroups l).1 = []
  | [] => by rw [eatGroups.eq_def]; intro; rfl
  | c :: [] => by
    rw [eatGroups.eq_def]
    by_cases hc : c = '.' <;> simp [hc]
  | c :: c2 :: r2 => by
    rw [eatGroups.eq_def]
    by_cases hc : c = '.'
    · simp only [hc, if_pos, if_true]
      by_cases h2 : c2.isDigit = true
      · simp [h2]
      · simp [h2]
    · simp [hc]

theorem map_dotToPH_digits (ds : List Char) (hds : ∀ d ∈ ds, d.isDigit = true) :
    ds.map dotToPH = ds := by
  induction ds with
  | nil => rfl
  | cons d ds ih =>
    simp only [List.map_cons, dotToPH]
    rw [if_neg (digit_ne_dot (hds d (by simp)))]
    rw [ih (fun x hx => hds x (by simp [hx]))]

/-- `eatGroups` consumption matches the neighbor rule when entered with a
digit on the left. -/
theorem pdAux_eatGroups : ∀ l : List Char,
    pdAux true l = (eatGroups l).1.map dotToPH ++ pdAux true (eatGroups l).2.1
  | [] => by rw [eatGroups.eq_def]; rfl
  | c :: [] => by
    rw [eatGroups.eq_def]
    by_cases hc : c = '.' <;> simp [hc]
  | c :: c2 :: r2 => by
    rw [eatGroups.eq_def]
    by_cases hc : c = '.'
    · simp only [hc, if_pos, if_true]
      by_cases h2 : c2.isDigit = true
      · simp only [h2, if_true]
        have ih := pdAux_eatGroups (r2.dropWhile Char.isDigit)
        -- LHS: pdAux true ('.' :: c2 :: r2)
        rw [pdAux]
        have hcond : (('.' == '.') && true && headDigit (c2 :: r2)) = true := by
          simp [headDigit, h2]
        rw [if_pos hcond]
        rw [pdAux]
        have hc2dot : (c2 == '.') = false := by simp [digit_ne_dot h2]
        rw [if_neg (by simp [hc2dot])]
        rw [h2]
        -- r2 = takeWhile ++ dropWhile
        conv_lhs => rw [← List.takeWhile_append_dropWhile Char.isDigit r2]
        rw [pdAux_digit_run _ _ (takeWhile_digits r2), ih]
        -- RHS
        simp only [List.map_cons, List.map_append, dotToPH_dot,
          dotToPH_ne (digit_ne_dot h2), map_dotToPH_digits _ (takeWhile_digits r2)]
        simp
      · simp [h2]
    · simp [hc]
termination_by l => l.length
decreasing_by
  have := length_dropWhile_le Char.isDigit r2
  simp only [List.length_cons]
  omega

/-- Equivalence of the source scan with the neighbor rule. -/
theorem preserve_version_dots_eq : ∀ l : List Char,
    preserve_version_dots l = protectDots l
  | [] => by rw [preserve_version_dots]; rfl
  | c :: rest => by
    rw [preserve_version_dots]
    by_cases hc : c.isDigit = true
    · simp only [hc, if_pos, if_true]
      have hcdot : (c == '.') = false := by simp [digit_ne_dot hc]
      have hrhs : protectDots (c :: rest)
          = c :: (rest.takeWhile Char.isDigit ++
              (List.map dotToPH (eatGroups (rest.dropWhile Char.isDigit)).1 ++
                pdAux false (eatGroups (rest.dropWhile Char.isDigit)).2.1)) := by
        rw [protectDots, pdAux, if_neg (by simp [hcdot]), hc]
        conv_lhs => rw [← List.takeWhile_append_dropWhile Char.isDigit rest]
        rw [pdAux_digit_run _ _ (takeWhile_digits rest), pdAux_eatGroups,
            pdAux_state_irrel _ true false (eatGroups_rest_head _)]
      rw [hrhs]
      have ih := preserve_version_dots_eq ((eatGroups (rest.dropWhile Char.isDigit)).2.1)
      rw [ih, protectDots]
      by_cases hn : 1 ≤ (eatGroups (rest.dropWhile Char.isDigit)).2.2
      · simp only [hn, if_pos, if_true]
        have hfn : (fun x => if x = '.' then VERSION_DOT else x) = dotToPH := rfl
        rw [hfn]
        simp only [List.map_cons, List.map_append,
          dotToPH_ne (digit_ne_dot hc), map_dotToPH_digits _ (takeWhile_digits rest)]
        simp
      · have hz : (eatGroups (rest.dropWhile Char.isDigit)).1 = [] :=
          eatGroups_zero_groups (rest.dropWhile Char.isDigit) (by omega)
        simp only [hn, if_neg, if_false]
        rw [hz]
        simp
    · simp only [hc, if_neg, if_false, Bool.false_eq_true, not_false_iff]
      rw [protectDots, pdAux, if_neg (by simp)]
      rw [preserve_version_dots_eq rest, protectDots]
      simp only [Bool.not_eq_true] at hc
      rw [hc]
termination_by l => l.length
decreasing_by
  · have h1 := eatGroups_rest_le (rest.dropWhile Char.isDigit)
    have h2 := length_dropWhile_le Char.isDigit rest
    simp only [List.length_cons]
    omega
  · simp

/-- `restore_version_dots` (lib.rs lines 168-170). -/
def restore_version_dots (s : List Char) : List Char :=
  s.map (fun c => if c = VERSION_DOT then '.' else c)

/-- Longest prefix whose UTF-8 byte length fits the budget.  This is the
flooring of the byte budget to a character boundary done in `truncate_base`. -/
def takeBytes (budget : Nat) : List Char → List Char
  | [] => []
  | c :: r => if c.utf8Size ≤ budget then c :: takeBytes (budget - c.utf8Size) r else []

/-- Split at the last `'-'` or `'_'`: returns `(before, fromSep)`.  Mirrors
`truncated.rfind(['-', '_'])`. -/
def splitLastSep : List Char → Option (List Char × List Char)
  | [] => none
  | c :: r =>
    match splitLastSep r with
    | some (a, b) => some (c :: a, b)
    | none => if c = '-' || c = '_' then some ([], c :: r) else none

/-- `MAX_FILENAME_BYTES` (lib.rs line 173). -/
def MAX_FILENAME_BYTES : Nat := 255

/-- `truncate_base` (lib.rs lines 178-200).  `maxBytes - utf8Len ext` is the
Rust `saturating_sub`; the truncation point is floored to a character boundary,
then moved back to the last separator when one occurs at a position `> 0`. -/
def truncate_base (base ext : List Char) (maxBytes : Nat) : List Char :=
  let budget := maxBytes - utf8Len ext
  if utf8Len base ≤ budget then base
  else
    let t := takeBytes budget base
    match splitLastSep t with
    | some (a, _) => if a.isEmpty then t else a
    | none => t

/-- External Unicode operations consumed by the pipeline: the `any_ascii`
transliterator, `char::is_alphanumeric`, and the characterwise views of
`str::to_lowercase` / `char::to_uppercase` (the Greek final-sigma context rule
of `str::to_lowercase` is not modelled; it cannot fire on ASCII data). -/
structure UnicodeEnv where
  translit : List Char → List Char
  uAlnum : Char → Bool
  uLower : Char → List Char
  uUpper : Char → List Char

/-- Word separator style (lib.rs lines 60-70). -/
inductive Style
  | kebab
  | snake
  | camel
deriving DecidableEq

/-- Options of the slugify pipeline (lib.rs lines 87-93). -/
structure SlugifyOptions where
  style : Style
  keep_unicode : Bool
deriving DecidableEq

/-- The bracket characters stripped in step 3 of the pipeline. -/
def BRACKETS : List Char := ['(', ')', '[', ']', '{', '}']

/-- `base.replace(['(', ')', '[', ']', '{', '}'], " ")`. -/
def replaceBrackets (s : List Char) : List Char :=
  s.map (fun c => if BRACKETS.contains c then ' ' else c)

/-- The word-separator predicate of the splitting step: a character splits words
iff it is not alphanumeric (Unicode-aware if `keep_unicode`, ASCII otherwise)
and is not the placeholder. -/
def isSepChar (env : UnicodeEnv) (keep : Bool) (c : Char) : Bool :=
  if keep then !(env.uAlnum c) && c != VERSION_DOT
  else !(c.isAlphanum) && c != VERSION_DOT

/-- Rust `str::split` over a character predicate: empty segments included. -/
def splitStr (p : Char → Bool) : List Char → List (List Char)
  | [] => [[]]
  | c :: r =>
    if p c then [] :: splitStr p r
    else
      match splitStr p r with
      | s :: ss => (c :: s) :: ss
      | [] => [[c]]

/-- Characterwise `str::to_lowercase`. -/
def lowerWord (env : UnicodeEnv) (w : List Char) : List Char :=
  (w.map env.uLower).flatten

/-- The word-collection step shared by `slugify` and `slugify_string`
(transliterate, strip brackets, protect version dots, split, drop empties,
lower-case). -/
def slugWords (env : UnicodeEnv) (opts : SlugifyOptions) (base : List Char) :
    List (List Char) :=
  let b1 := if opts.keep_unicode then base else env.translit base
  let b2 := replaceBrackets b1
  let b3 := preserve_version_dots b2
  ((splitStr (isSepChar env opts.keep_unicode) b3).filter (fun w => !w.isEmpty)).map
    (lowerWord env)

/-- Title-case a word for camel style: uppercase the first character. -/
def capitalizeWord (env : UnicodeEnv) (w : List Char) : List Char :=
  match w with
  | [] => []
  | c :: r => env.uUpper c ++ r

/-- Step 5: join the words according to the style. -/
def joinStyle (env : UnicodeEnv) (st : Style) (ws : List (List Char)) : List Char :=
  match st with
  | .kebab => List.intercalate ['-'] ws
  | .snake => List.intercalate ['_'] ws
  | .camel =>
    match ws with
    | [] => []
    | w :: rest => w ++ (rest.map (capitalizeWord env)).flatten

/-- `slugify` (lib.rs lines 222-303). -/
def slugify (env : UnicodeEnv) (filename : List Char) (opts : SlugifyOptions) :
    List Char :=
  if filename.isEmpty then []
  else
    let be := split_extension filename
    if be.1.isEmpty then filename
    else
      let is_dotfile := be.1.head? == some '.'
      let ws := slugWords env opts be.1
      if ws.isEmpty then be.2
      else
        let s1 := restore_version_dots (joinStyle env opts.style ws)
        let s2 := if is_dotfile then '.' :: s1 else s1
        truncate_base s2 be.2 MAX_FILENAME_BYTES ++ be.2

/-- `slugify_string` (lib.rs lines 321-384). -/
def slugify_string (env : UnicodeEnv) (input : List Char) (opts : SlugifyOptions) :
    List Char :=
  if input.isEmpty then []
  else
    let ws := slugWords env opts input
    if ws.isEmpty then []
    else
      let s1 := restore_version_dots (joinStyle env opts.style ws)
      truncate_base s1 [] MAX_FILENAME_BYTES

/-- A concrete environment used for evaluation and counterexamples: the
transliterator keeps ASCII characters and drops the rest (`any_ascii` passes
ASCII through unchanged), and the Unicode operations are the ASCII
restrictions of the Rust operations. -/
def asciiEnv : UnicodeEnv where
  translit := fun s => s.filter (fun c => c.toNat < 128)
  uAlnum := Char.isAlphanum
  uLower := fun c => [c.toLower]
  uUpper := fun c => [c.toUpper]

/-- Evaluation form of `slugWords`, using the structural `protectDots`. -/
def slugWordsPD (env : UnicodeEnv) (opts : SlugifyOptions) (base : List Char) :
    List (List Char) :=
  let b1 := if opts.keep_unicode then base else env.translit base
  let b2 := replaceBrackets b1
  let b3 := protectDots b2
  ((splitStr (isSepChar env opts.keep_unicode) b3).filter (fun w => !w.isEmpty)).map
    (lowerWord env)

theorem slugWords_eq_pd (env : UnicodeEnv) (opts : SlugifyOptions) (base : List Char) :
    slugWords env opts base = slugWordsPD env opts base := by
  simp only [slugWords, slugWordsPD, preserve_version_dots_eq]

/-- Evaluation form of `slugify`. -/
def slugifyPD (env : UnicodeEnv) (filename : List Char) (opts : SlugifyOptions) :
    List Char :=
  if filename.isEmpty then []
  else
    let be := split_extension filename
    if be.1.isEmpty then filename
    else
      let is_dotfile := be.1.head? == some '.'
      let ws := slugWordsPD env opts be.1
      if ws.isEmpty then be.2
      else
        let s1 := restore_version_dots (joinStyle env opts.style ws)
        let s2 := if is_dotfile then '.' :: s1 else s1
        truncate_base s2 be.2 MAX_FILENAME_BYTES ++ be.2

theorem slugify_eq_pd (env : UnicodeEnv) (f : List Char) (opts : SlugifyOptions) :
    slugify env f opts = slugifyPD env f opts := by
  simp only [slugify, slugifyPD, slugWords_eq_pd]

/-- Evaluation form of `slugify_string`. -/
def slugify_stringPD (env : UnicodeEnv) (input : List Char) (opts : SlugifyOptions) :
    List Char :=
  if input.isEmpty then []
  else
    let ws := slugWordsPD env opts input
    if ws.isEmpty then []
    else
      let s1 := restore_version_dots (joinStyle env opts.style ws)
      truncate_base s1 [] MAX_FILENAME_BYTES

theorem slugify_string_eq_pd (env : UnicodeEnv) (s : List Char) (opts : SlugifyOptions) :
    slugify_string env s opts = slugify_stringPD env s opts := by
  simp only [slugify_string, slugify_stringPD, slugWords_eq_pd]

theorem splitLastDot_append : ∀ {l a b : List Char},
    splitLastDot l = some (a, b) → a ++ b = l := by
  intro l
  induction l with
  | nil => intro a b h; simp [splitLastDot] at h
  | cons c r ih =>
    intro a b h
    rw [splitLastDot] at h
    cases hr : splitLastDot r with
    | some ab =>
      obtain ⟨a', b'⟩ := ab
      rw [hr] at h
      simp only [Option.some.injEq, Prod.mk.injEq] at h
      obtain ⟨ha, hb⟩ := h
      subst ha hb
      simp [ih hr]
    | none =>
      rw [hr] at h
      by_cases hc : c = '.'
      · rw [if_pos hc] at h
        simp only [Option.some.injEq, Prod.mk.injEq] at h
        obtain ⟨ha, hb⟩ := h
        subst ha hb
        simp
      · rw [if_neg hc] at h
        exact absurd h (by simp)

/-- C6 (**confirmed**): for every input string (including the empty string and
strings with multi-byte characters), the base and extension returned by
`split_extension` concatenate back to the input, byte for byte. -/
theorem claim_C6_split_roundtrip (f : List Char) :
    (split_extension f).1 ++ (split_extension f).2 = f := by
  unfold split_extension
  split
  · rfl
  · cases hfind : COMPOUND.find? (fun e => ciEndsWith f e) with
    | some e => simp [List.take_append_drop]
    | none =>
      simp only
      cases hsplit : splitLastDot f with
      | some ab =>
        obtain ⟨a, b⟩ := ab
        by_cases ha : a.isEmpty <;> simp [ha, splitLastDot_append hsplit]
      | none => simp

/-- The driver-level guard of main.rs (lines 100-107): a slugified name is
rejected, before any rename is attempted, when it is empty, ".", or "..". -/
def invalidSlug (s : List Char) : Bool :=
  s.isEmpty || s == ['.'] || s == ['.', '.']

/-- C10 (**confirmed**): for the inputs ".." and "..." (and every option
value), the slugify pipeline returns the single-dot string "."; this
directory-aliasing name is only rejected by the CLI driver guard
(`invalidSlug`, from main.rs), which reports a per-item failure instead of
renaming. -/
theorem claim_C10_dot_outputs :
    (∀ opts : SlugifyOptions,
      slugify asciiEnv ['.', '.'] opts = ['.'] ∧
      slugify asciiEnv ['.', '.', '.'] opts = ['.']) ∧
    invalidSlug ['.'] = true ∧ invalidSlug ['.', '.'] = true ∧
    invalidSlug [] = true := by
  refine ⟨fun opts => ?_, by decide, by decide, by decide⟩
  obtain ⟨st, ku⟩ := opts
  rw [slugify_eq_pd, slugify_eq_pd]
  cases st <;> cases ku <;> exact ⟨by decide, by decide⟩

theorem utf8Len_append (a b : List Char) :
    utf8Len (a ++ b) = utf8Len a + utf8Len b := by
  simp [utf8Len]

theorem split_extension_append (f : List Char) :
    (split_extension f).1 ++ (split_extension f).2 = f := by
  unfold split_extension
  split
  · rfl
  · cases hfind : COMPOUND.find? (fun e => ciEndsWith f e) with
    | some e => simp [List.take_append_drop]
    | none =>
      simp only
      cases hsplit : splitLastDot f with
      | some ab =>
        obtain ⟨a, b⟩ := ab
        by_cases ha : a.isEmpty <;> simp [ha, splitLastDot_append hsplit]
      | none => simp

theorem utf8Len_takeBytes (budget : Nat) : ∀ l : List Char,
    utf8Len (takeBytes budget l) ≤ budget
  | [] => by rw [takeBytes]; simp [utf8Len]
  | c :: r => by
    rw [takeBytes]
    by_cases h : c.utf8Size ≤ budget
    · rw [if_pos h]
      have ih := utf8Len_takeBytes (budget - c.utf8Size) r
      simp only [utf8Len, List.map_cons, List.sum_cons]
      simp only [utf8Len] at ih
      omega
    · rw [if_neg h]
      simp [utf8Len]

theorem mem_takeBytes {c : Char} (budget : Nat) : ∀ {l : List Char},
    c ∈ takeBytes budget l → c ∈ l := by
  intro l
  induction l generalizing budget with
  | nil => intro h; rw [takeBytes] at h; exact absurd h (by simp)
  | cons d r ih =>
    intro h
    rw [takeBytes] at h
    by_cases hd : d.utf8Size ≤ budget
    · rw [if_pos hd] at h
      rcases List.mem_cons.mp h with h1 | h2
      · simp [h1]
      · exact List.mem_cons_of_mem _ (ih _ h2)
    · rw [if_neg hd] at h
      exact absurd h (by simp)

theorem splitLastSep_append : ∀ {l a b : List Char},
    splitLastSep l = some (a, b) → a ++ b = l := by
  intro l
  induction l with
  | nil => intro a b h; simp [splitLastSep] at h
  | cons c r ih =>
    intro a b h
    rw [splitLastSep] at h
    cases hr : splitLastSep r with
    | some ab =>
      obtain ⟨a', b'⟩ := ab
      rw [hr] at h
      simp only [Option.some.injEq, Prod.mk.injEq] at h
      obtain ⟨ha, hb⟩ := h
      subst ha hb
      simp [ih hr]
    | none =>
      rw [hr] at h
      by_cases hc : c = '-' || c = '_'
      · rw [if_pos hc] at h
        simp only [Option.some.injEq, Prod.mk.injEq] at h
        obtain ⟨ha, hb⟩ := h
        subst ha hb
        simp
      · rw [if_neg hc] at h
        exact absurd h (by simp)

/-- The truncated base fits in the byte budget left over by the extension. -/
theorem utf8Len_truncate_base (b e : List Char) (m : Nat) :
    utf8Len (truncate_base b e m) ≤ m - utf8Len e := by
  rw [truncate_base]
  by_cases hfit : utf8Len b ≤ m - utf8Len e
  · rw [if_pos hfit]; exact hfit
  · rw [if_neg hfit]
    simp only
    cases hs : splitLastSep (takeBytes (m - utf8Len e) b) with
    | some ab =>
      obtain ⟨a, b'⟩ := ab
      simp only
      by_cases ha : a.isEmpty
      · rw [if_pos ha]; exact utf8Len_takeBytes _ _
      · rw [if_neg ha]
        have happ := splitLastSep_append hs
        have := utf8Len_takeBytes (m - utf8Len e) b
        rw [← happ, utf8Len_append] at this
        omega
    | none => exact utf8Len_takeBytes _ _

theorem mem_truncate_base {c : Char} {b : List Char} (e : List Char) (m : Nat)
    (h : c ∈ truncate_base b e m) : c ∈ b := by
  rw [truncate_base] at h
  by_cases hfit : utf8Len b ≤ m - utf8Len e
  · rw [if_pos hfit] at h; exact h
  · rw [if_neg hfit] at h
    simp only at h
    cases hs : splitLastSep (takeBytes (m - utf8Len e) b) with
    | some ab =>
      obtain ⟨a, b'⟩ := ab
      rw [hs] at h
      simp only at h
      by_cases ha : a.isEmpty
      · rw [if_pos ha] at h; exact mem_takeBytes _ h
      · rw [if_neg ha] at h
        have happ := splitLastSep_append hs
        exact mem_takeBytes _ (by rw [← happ]; exact List.mem_append_left _ h)
    | none =>
      rw [hs] at h
      exact mem_takeBytes _ h

/-- `restore_version_dots` output never contains the placeholder. -/
theorem restore_no_placeholder (x : List Char) :
    VERSION_DOT ∉ restore_version_dots x := by
  intro h
  rw [restore_version_dots] at h
  obtain ⟨c, _, hc⟩ := List.mem_map.mp h
  by_cases hcp : c = VERSION_DOT
  · rw [if_pos hcp] at hc
    exact absurd hc.symm (by decide)
  · rw [if_neg hcp] at hc
    exact hcp hc

/-- C5 (**corrected**): the full split-equality of extensions fails (see the
counterexample), but the slugified name always *ends with* the original
extension component, byte for byte and case preserved, and names whose base
component is empty (pure dotfiles in particular) pass through unchanged. -/
theorem claim_C5_amended (env : UnicodeEnv) (f : List Char) (opts : SlugifyOptions) :
    (split_extension f).2 <:+ slugify env f opts ∧
    ((split_extension f).1 = [] → slugify env f opts = f) := by
  have happ := split_extension_append f
  rw [slugify]
  by_cases hf : f.isEmpty = true
  · rw [if_pos hf]
    rw [List.isEmpty_iff.mp hf] at happ ⊢
    have : (split_extension ([] : List Char)).2 = [] := by decide
    rw [this]
    exact ⟨List.nil_suffix, fun _ => rfl⟩
  · rw [if_neg hf]
    by_cases hb : (split_extension f).1.isEmpty = true
    · rw [if_pos hb]
      have hb' : (split_extension f).1 = [] := List.isEmpty_iff.mp hb
      rw [hb'] at happ
      refine ⟨?_, fun _ => rfl⟩
      rw [List.nil_append] at happ
      rw [happ]
    · rw [if_neg hb]
      by_cases hw : (slugWords env opts (split_extension f).1).isEmpty = true
      · rw [if_pos hw]
        refine ⟨List.suffix_refl _, fun h => absurd h (by simpa using hb)⟩
      · rw [if_neg hw]
        refine ⟨⟨_, rfl⟩, fun h => absurd h (by simpa using hb)⟩

/-- C5, the counterexample: `slugify ".tar@.gz" = ".tar.gz"`, whose extension
splits as ".tar.gz", not as the original ".gz" — and ".tar@.gz" is not a pure
dotfile. -/
theorem claim_C5_counterexample :
    (split_extension (".tar@.gz".toList)).1 ≠ [] ∧
    (split_extension (slugify asciiEnv ".tar@.gz".toList ⟨Style.kebab, false⟩)).2 ≠
      (split_extension ".tar@.gz".toList).2 := by
  rw [slugify_eq_pd]
  exact ⟨by decide, by decide⟩

/-- C2 (**corrected**): the 255-byte bound fails for pure dotfiles and for
oversized extensions (see the counterexample); it holds whenever the base
component is nonempty and the extension fits in 255 bytes. -/
theorem claim_C2_amended (env : UnicodeEnv) (f : List Char) (opts : SlugifyOptions)
    (hb : (split_extension f).1 ≠ [])
    (he : utf8Len (split_extension f).2 ≤ 255) :
    utf8Len (slugify env f opts) ≤ 255 := by
  rw [slugify]
  by_cases hf : f.isEmpty = true
  · rw [if_pos hf]; simp [utf8Len]
  · rw [if_neg hf]
    rw [if_neg (by simpa using hb)]
    by_cases hw : (slugWords env opts (split_extension f).1).isEmpty = true
    · rw [if_pos hw]; exact he
    · rw [if_neg hw]
      rw [utf8Len_append]
      have ht := utf8Len_truncate_base
        (if (split_extension f).1.head? == some '.' then
          '.' :: restore_version_dots (joinStyle env opts.style
            (slugWords env opts (split_extension f).1))
         else restore_version_dots (joinStyle env opts.style
            (slugWords env opts (split_extension f).1)))
        (split_extension f).2 MAX_FILENAME_BYTES
      have hm : MAX_FILENAME_BYTES = 255 := rfl
      rw [hm] at ht ⊢
      omega

/-- C2, the counterexample: a 256-byte pure dotfile passes through `slugify`
unchanged, exceeding the 255-byte bound. -/
theorem claim_C2_counterexample :
    255 < utf8Len (slugify asciiEnv ('.' :: List.replicate 255 'a') ⟨Style.kebab, false⟩) := by
  rw [slugify_eq_pd]
  decide

/-- C2, witness for the amended claim at a concrete input. -/
theorem claim_C2_witness :
    (split_extension "My File.txt".toList).1 ≠ [] ∧
    utf8Len (split_extension "My File.txt".toList).2 ≤ 255 ∧
    utf8Len (slugify asciiEnv "My File.txt".toList ⟨Style.kebab, false⟩) ≤ 255 :=
  ⟨by decide, by decide, claim_C2_amended asciiEnv _ _ (by decide) (by decide)⟩

theorem restore_pdAux (b : Bool) : ∀ s : List Char, VERSION_DOT ∉ s →
    restore_version_dots (pdAux b s) = s := by
  intro s
  induction s generalizing b with
  | nil => intro _; rfl
  | cons c r ih =>
    intro h
    have hc : c ≠ VERSION_DOT := fun hc => h (by simp [hc])
    have hr : VERSION_DOT ∉ r := fun hr => h (by simp [hr])
    rw [pdAux]
    by_cases hcond : ((c == '.') && b && headDigit r) = true
    · rw [if_pos hcond]
      have hcdot : c = '.' := by
        simp only [Bool.and_eq_true, beq_iff_eq] at hcond
        exact hcond.1.1
      rw [restore_version_dots, List.map_cons, if_pos rfl, ← restore_version_dots,
        ih false hr, hcdot]
    · rw [if_neg hcond]
      rw [restore_version_dots, List.map_cons, if_neg hc, ← restore_version_dots,
        ih _ hr]

/-- C7 (**confirmed**): on any string free of the reserved placeholder
character, restoring after protecting is the identity. -/
theorem claim_C7_protect_restore (s : List Char) (h : VERSION_DOT ∉ s) :
    restore_version_dots (preserve_version_dots s) = s := by
  rw [preserve_version_dots_eq]
  exact restore_pdAux false s h

/-- C7, witness at a concrete input. -/
theorem claim_C7_witness :
    VERSION_DOT ∉ "app-1.2.3".toList ∧
    restore_version_dots (preserve_version_dots "app-1.2.3".toList) = "app-1.2.3".toList :=
  ⟨by decide, claim_C7_protect_restore _ (by decide)⟩

/-- C9 (**confirmed**): `slugify_string` output never contains the reserved
placeholder U+0001, even when the input does; a placeholder that survives word
segmentation is emitted as a literal dot, e.g. `slugify_string "a\x01b" = "a.b"`
under default options. -/
theorem claim_C9_no_placeholder :
    (∀ (env : UnicodeEnv) (s : List Char) (opts : SlugifyOptions),
        VERSION_DOT ∉ slugify_string env s opts) ∧
    slugify_string asciiEnv ['a', VERSION_DOT, 'b'] ⟨Style.kebab, false⟩
      = ['a', '.', 'b'] := by
  constructor
  · intro env s opts
    rw [slugify_string]
    by_cases hs : s.isEmpty = true
    · rw [if_pos hs]; simp
    · rw [if_neg hs]
      by_cases hw : (slugWords env opts s).isEmpty = true
      · rw [if_pos hw]; simp
      · rw [if_neg hw]
        intro hmem
        exact restore_no_placeholder _ (mem_truncate_base _ _ hmem)
  · rw [slugify_string_eq_pd]
    decide

/-- A path, modelled as a parent directory plus a filename (the resolver only
ever edits the filename and rejoins the same parent). -/
structure FsPath where
  dir : List Char
  name : List Char
deriving DecidableEq

/-- Read-only filesystem view used by the resolver: existence checks and the
same-underlying-file (same device and inode) test of `same_file`
(rename.rs lines 9-16). -/
structure FsView where
  pathExists : FsPath → Bool
  sameFile : FsPath → FsPath → Bool

/-- The collision predicate of `safe_target` (rename.rs line 43): a path
collides iff it exists and is not the same underlying file as the source
(when a source is given). -/
def collides (fs : FsView) (source : Option FsPath) (p : FsPath) : Bool :=
  fs.pathExists p && !(match source with
    | some s => fs.sameFile s p
    | none => false)

/-- `MAX_COLLISION_SUFFIX` (rename.rs line 35). -/
def MAX_COLLISION_SUFFIX : Nat := 1000

/-- Decimal rendering of the numeric suffix, as in `format!("{n}")`. -/
def natChars (n : Nat) : List Char := Nat.toDigits 10 n

/-- `format_candidate` (rename.rs lines 53-60): insert `-n` before the
extension, or append `-n` after the whole name for a pure dotfile. -/
def format_candidate (dir base ext : List Char) (n : Nat) : FsPath :=
  if base.isEmpty then ⟨dir, ext ++ '-' :: natChars n⟩
  else ⟨dir, base ++ '-' :: natChars n ++ ext⟩

/-- `safe_target` (rename.rs lines 42-71): return the target unchanged when
clobbering is allowed or there is no collision; otherwise try candidates
numbered 2 through 1001 and fail after exhausting them. -/
def safe_target (fs : FsView) (target : FsPath) (no_clobber : Bool)
    (source : Option FsPath) : Except (List Char) FsPath :=
  if !no_clobber || !collides fs source target then .ok target
  else
    let be := split_extension target.name
    match ((List.range' 2 MAX_COLLISION_SUFFIX).map
        (format_candidate target.dir be.1 be.2)).find?
        (fun c => !collides fs source c) with
    | some c => .ok c
    | none => .error "too many collisions".toList

/-- The result of a rename operation (rename.rs lines 24-32). -/
inductive RenameResult
  | Renamed (fromPath toPath : FsPath)
  | Skipped (path : FsPath)
  | Failed (path : FsPath) (error : List Char)
deriving DecidableEq

/-- A filesystem mutation; `rename_file` reports the mutations it performs. -/
inductive FsOp
  | rename (source target : FsPath)
deriving DecidableEq

/-- `rename_file` (rename.rs lines 78-118), modelled as returning the
`RenameResult` together with the list of filesystem mutations performed (the
dry-run and failure paths perform none).  `osRename` models the outcome of
`fs::rename`: `none` is success, `some e` an OS error. -/
def rename_file (fs : FsView) (osRename : FsPath → FsPath → Option (List Char))
    (source target : FsPath) (no_clobber dry_run : Bool) :
    RenameResult × List FsOp :=
  if source = target then (.Skipped source, [])
  else
    let is_case_only := fs.sameFile source target
    match (if is_case_only then Except.ok target
           else safe_target fs target no_clobber (some source)) with
    | .error e => (.Failed source e, [])
    | .ok final =>
      if dry_run then (.Renamed source final, [])
      else
        match osRename source final with
        | none => (.Renamed source final, [.rename source final])
        | some e => (.Failed source e, [])

theorem find_map_range_first {α : Type} (p : α → Bool) (f : Nat → α) :
    ∀ (s len n : Nat), s ≤ n → n < s + len → p (f n) = true →
    (∀ m, s ≤ m → m < n → p (f m) = false) →
    ((List.range' s len).map f).find? p = some (f n) := by
  intro s len
  induction len generalizing s with
  | zero => intro n h1 h2; omega
  | succ k ih =>
    intro n h1 h2 hp hless
    rw [List.range'_succ, List.map_cons, List.find?_cons]
    by_cases hsn : s = n
    · subst hsn
      rw [hp]
    · have hs : p (f s) = false := hless s le_rfl (by omega)
      rw [hs]
      exact ih (s + 1) n (by omega) (by omega) hp
        (fun m hm hmn => hless m (by omega) hmn)

theorem find_map_range_none {α : Type} (p : α → Bool) (f : Nat → α)
    (s len : Nat) (h : ∀ n, s ≤ n → n < s + len → p (f n) = false) :
    ((List.range' s len).map f).find? p = none := by
  rw [List.find?_eq_none]
  intro x hx
  obtain ⟨n, hn, rfl⟩ := List.mem_map.mp hx
  rw [List.mem_range'_1] at hn
  simp [h n hn.1 hn.2]

/-- Shared fact: with clobbering allowed or no collision, `safe_target`
returns the target unchanged. -/
theorem safe_target_ok (fs : FsView) (target : FsPath) (nc : Bool)
    (source : Option FsPath)
    (h : nc = false ∨ collides fs source target = false) :
    safe_target fs target nc source = .ok target := by
  rw [safe_target]
  rcases h with h | h
  · rw [if_pos (by simp [h])]
  · rw [if_pos (by simp [h])]

/-- C4 (**confirmed**): `safe_target` returns the target unchanged when
`no_clobber` is off or the target does not collide (where a path collides iff
it exists and is not the same device-and-inode file as the source); otherwise
it returns the first non-colliding candidate among the 1000 numbered
candidates built by `format_candidate` for n = 2..1001, and errors exactly
when all 1000 collide. -/
theorem claim_C4_safe_target (fs : FsView) (target : FsPath) (nc : Bool)
    (source : Option FsPath) :
    ((nc = false ∨ collides fs source target = false) →
        safe_target fs target nc source = .ok target) ∧
    (nc = true → collides fs source target = true →
      (∀ n, 2 ≤ n → n ≤ 1001 →
          collides fs source (format_candidate target.dir
            (split_extension target.name).1 (split_extension target.name).2 n) = true) →
        safe_target fs target nc source = .error "too many collisions".toList) ∧
    (nc = true → collides fs source target = true →
      ∀ n, 2 ≤ n → n ≤ 1001 →
        collides fs source (format_candidate target.dir
          (split_extension target.name).1 (split_extension target.name).2 n) = false →
        (∀ m, 2 ≤ m → m < n →
          collides fs source (format_candidate target.dir
            (split_extension target.name).1 (split_extension target.name).2 m) = true) →
        safe_target fs target nc source = .ok (format_candidate target.dir
          (split_extension target.name).1 (split_extension target.name).2 n)) := by
  refine ⟨safe_target_ok fs target nc source, ?_, ?_⟩
  · intro hnc hcol hall
    rw [safe_target, if_neg (by simp [hnc, hcol])]
    simp only
    rw [find_map_range_none]
    intro n h1 h2
    rw [MAX_COLLISION_SUFFIX] at h2
    simp [hall n h1 (by omega)]
  · intro hnc hcol n h2 h1001 hfree hless
    rw [safe_target, if_neg (by simp [hnc, hcol])]
    simp only
    rw [find_map_range_first _ _ 2 MAX_COLLISION_SUFFIX n h2
      (by rw [MAX_COLLISION_SUFFIX]; omega) (by simp [hfree])
      (fun m hm hmn => by simp [hless m hm hmn])]

/-- C4, witness: with `file.txt` and `file-2.txt` on disk, resolving
`file.txt` under no-clobber yields `file-3.txt`; with clobbering allowed the
target is returned unchanged; when every path exists the resolver reports
exhaustion. -/
theorem claim_C4_witness :
    (safe_target
        ⟨fun p => p.name == "file.txt".toList || p.name == "file-2.txt".toList,
          fun _ _ => false⟩
        ⟨[], "file.txt".toList⟩ true none
      = .ok ⟨[], "file-3.txt".toList⟩) ∧
    (safe_target
        ⟨fun p => p.name == "file.txt".toList || p.name == "file-2.txt".toList,
          fun _ _ => false⟩
        ⟨[], "file.txt".toList⟩ false none
      = .ok ⟨[], "file.txt".toList⟩) ∧
    (safe_target ⟨fun _ => true, fun _ _ => false⟩ ⟨[], "file.txt".toList⟩ true none
      = .error "too many collisions".toList) := by
  refine ⟨?_, ?_, ?_⟩
  · have h := (claim_C4_safe_target
      ⟨fun p => p.name == "file.txt".toList || p.name == "file-2.txt".toList,
        fun _ _ => false⟩
      ⟨[], "file.txt".toList⟩ true none).2.2 rfl (by decide) 3 (by omega) (by omega)
      (by decide)
      (fun m hm hmn => by
        have : m = 2 := by omega
        subst this
        decide)
    rw [h]
    have he : format_candidate ([] : List Char)
        (split_extension "file.txt".toList).1 (split_extension "file.txt".toList).2 3
        = (⟨[], "file-3.txt".toList⟩ : FsPath) := by decide
    rw [he]
  · exact (claim_C4_safe_target _ _ false none).1 (Or.inl rfl)
  · exact (claim_C4_safe_target ⟨fun _ => true, fun _ _ => false⟩
      ⟨[], "file.txt".toList⟩ true none).2.1 rfl rfl (fun n _ _ => rfl)

/-- C8 (**confirmed**): with `dry_run = true` and distinct source and target,
`rename_file` performs no filesystem mutation, and returns `Renamed{from =
source, to = resolved target}` when resolution succeeds (including the
case-only shortcut) and `Failed` with the resolver's error otherwise. -/
theorem claim_C8_dry_run (fs : FsView) (osRename : FsPath → FsPath → Option (List Char))
    (source target : FsPath) (nc : Bool) (hst : source ≠ target) :
    (rename_file fs osRename source target nc true).2 = [] ∧
    (rename_file fs osRename source target nc true).1 =
      (match (if fs.sameFile source target then Except.ok target
              else safe_target fs target nc (some source)) with
       | .ok t => RenameResult.Renamed source t
       | .error e => RenameResult.Failed source e) := by
  rw [rename_file, if_neg hst]
  simp only
  cases hres : (if fs.sameFile source target then Except.ok target
                else safe_target fs target nc (some source)) with
  | error e => exact ⟨rfl, rfl⟩
  | ok t => exact ⟨rfl, rfl⟩

/-- C8, witness at concrete values: a dry-run rename of `a.txt` to `b.txt` on
an empty filesystem reports the rename and performs nothing. -/
theorem claim_C8_witness :
    (⟨[], "a.txt".toList⟩ : FsPath) ≠ ⟨[], "b.txt".toList⟩ ∧
    (rename_file ⟨fun _ => false, fun _ _ => false⟩ (fun _ _ => none)
        ⟨[], "a.txt".toList⟩ ⟨[], "b.txt".toList⟩ true true).2 = [] ∧
    (rename_file ⟨fun _ => false, fun _ _ => false⟩ (fun _ _ => none)
        ⟨[], "a.txt".toList⟩ ⟨[], "b.txt".toList⟩ true true).1 =
      RenameResult.Renamed ⟨[], "a.txt".toList⟩ ⟨[], "b.txt".toList⟩ := by
  have h := claim_C8_dry_run ⟨fun _ => false, fun _ _ => false⟩ (fun _ _ => none)
    ⟨[], "a.txt".toList⟩ ⟨[], "b.txt".toList⟩ true (by decide)
  refine ⟨by decide, h.1, ?_⟩
  rw [h.2]
  have hc : (⟨fun _ => false, fun _ _ => false⟩ : FsView).sameFile
      ⟨[], "a.txt".toList⟩ ⟨[], "b.txt".toList⟩ = false := rfl
  rw [hc]
  simp only [Bool.false_eq_true, if_false]
  have hs : safe_target ⟨fun _ => false, fun _ _ => false⟩ ⟨[], "b.txt".toList⟩ true
      (some ⟨[], "a.txt".toList⟩) = Except.ok ⟨[], "b.txt".toList⟩ :=
    safe_target_ok _ _ _ _ (Or.inr rfl)
  rw [hs]

theorem char_toNat_ofNat {n : Nat} (h : n < 55296) : (Char.ofNat n).toNat = n := by
  have hv : n.isValidChar := Or.inl h
  rw [Char.ofNat, dif_pos hv, Char.ofNatAux, Char.toNat]
  simp [UInt32.toNat, BitVec.ofNatLt]

/-- `Char.toLower` either fixes its argument or produces a lowercase letter
from an uppercase one. -/
theorem toLower_cases (c : Char) :
    c.toLower = c ∨
    (97 ≤ c.toLower.toNat ∧ c.toLower.toNat ≤ 122 ∧ 65 ≤ c.toNat ∧ c.toNat ≤ 90) := by
  rw [Char.toLower]
  by_cases h : c.toNat ≥ 65 ∧ c.toNat ≤ 90
  · rw [if_pos h]
    right
    rw [char_toNat_ofNat (by omega)]
    omega
  · rw [if_neg h]
    left
    rfl

theorem toUpper_cases (c : Char) :
    c.toUpper = c ∨
    (65 ≤ c.toUpper.toNat ∧ c.toUpper.toNat ≤ 90 ∧ 97 ≤ c.toNat ∧ c.toNat ≤ 122) := by
  rw [Char.toUpper]
  by_cases h : c.toNat ≥ 97 ∧ c.toNat ≤ 122
  · rw [if_pos h]
    right
    rw [char_toNat_ofNat (by omega)]
    omega
  · rw [if_neg h]
    left
    rfl

/-- The shell-dangerous characters of the safety property: dollar, both
parentheses, backtick, semicolon, pipe, both angle brackets, newline,
backslash, ampersand, double quote, single quote. -/
def forbiddenChars : List Char :=
  ['$', '(', ')', Char.ofNat 96, ';', '|', '>', '<', Char.ofNat 10,
   Char.ofNat 92, '&', Char.ofNat 34, Char.ofNat 39]

theorem forbidden_toNat : ∀ c ∈ forbiddenChars,
    ¬(97 ≤ c.toNat ∧ c.toNat ≤ 122) ∧ ¬(65 ≤ c.toNat ∧ c.toNat ≤ 90) := by
  decide

theorem forbidden_not_alnum : ∀ c ∈ forbiddenChars, c.isAlphanum = false := by
  decide

theorem toLower_forbidden {c : Char} (h : c.toLower ∈ forbiddenChars) :
    c ∈ forbiddenChars := by
  rcases toLower_cases c with he | ⟨h1, h2, _⟩
  · rwa [he] at h
  · exact absurd ⟨h1, h2⟩ (forbidden_toNat _ h).1

theorem toUpper_forbidden {c : Char} (h : c.toUpper ∈ forbiddenChars) :
    c ∈ forbiddenChars := by
  rcases toUpper_cases c with he | ⟨h1, h2, _⟩
  · rwa [he] at h
  · exact absurd ⟨h1, h2⟩ (forbidden_toNat _ h).2

theorem toLower_ascii {c : Char} (h : c.toNat < 128) : c.toLower.toNat < 128 := by
  rcases toLower_cases c with he | ⟨_, h2, _⟩
  · rwa [he]
  · omega

theorem toUpper_ascii {c : Char} (h : c.toNat < 128) : c.toUpper.toNat < 128 := by
  rcases toUpper_cases c with he | ⟨_, h2, _⟩
  · rwa [he]
  · omega

/-- Characters of any segment produced by `splitStr` do not satisfy the
splitting predicate. -/
theorem splitStr_chars (p : Char → Bool) : ∀ l : List Char,
    ∀ w ∈ splitStr p l, ∀ c ∈ w, p c = false
  | [] => by
    intro w hw c hc
    rw [splitStr] at hw
    simp only [List.mem_singleton] at hw
    subst hw
    simp at hc
  | a :: r => by
    intro w hw c hc
    rw [splitStr] at hw
    by_cases ha : p a
    · rw [if_pos ha] at hw
      rcases List.mem_cons.mp hw with h1 | h2
      · subst h1; simp at hc
      · exact splitStr_chars p r w h2 c hc
    · rw [if_neg ha] at hw
      cases hs : splitStr p r with
      | nil =>
        rw [hs] at hw
        rcases List.mem_cons.mp hw with h1 | h2
        · subst h1
          rcases List.mem_cons.mp hc with h3 | h4
          · subst h3; simpa using ha
          · simp at h4
        · simp at h2
      | cons s ss =>
        rw [hs] at hw
        rcases List.mem_cons.mp hw with h1 | h2
        · subst h1
          rcases List.mem_cons.mp hc with h3 | h4
          · subst h3; simpa using ha
          · exact splitStr_chars p r s (by rw [hs]; simp) c h4
        · exact splitStr_chars p r w (by rw [hs]; simp [h2]) c hc

theorem intercalate_cons_cons (s a b : List Char) (t : List (List Char)) :
    List.intercalate s (a :: b :: t) = a ++ s ++ List.intercalate s (b :: t) := by
  simp [List.intercalate, List.intersperse_cons_cons]

theorem mem_intercalate {c : Char} (sep : Char) : ∀ ws : List (List Char),
    c ∈ List.intercalate [sep] ws → c = sep ∨ ∃ w ∈ ws, c ∈ w
  | [] => by intro h; simp [List.intercalate] at h
  | [w] => by
    intro h
    simp only [List.intercalate, List.intersperse] at h
    simp only [List.flatten, List.append_nil] at h
    exact Or.inr ⟨w, by simp, by simpa using h⟩
  | w :: w2 :: ws => by
    intro h
    rw [intercalate_cons_cons] at h
    rcases List.mem_append.mp h with h1 | h2
    · rcases List.mem_append.mp h1 with h3 | h4
      · exact Or.inr ⟨w, by simp, h3⟩
      · exact Or.inl (by simpa using h4)
    · rcases mem_intercalate sep (w2 :: ws) h2 with h5 | ⟨w', hw', hc'⟩
      · exact Or.inl h5
      · exact Or.inr ⟨w', by simp [hw'], hc'⟩

theorem mem_lowerWord {c : Char} {env : UnicodeEnv} {w : List Char}
    (h : c ∈ lowerWord env w) : ∃ c0 ∈ w, c ∈ env.uLower c0 := by
  rw [lowerWord] at h
  obtain ⟨l, hl, hc⟩ := List.mem_flatten.mp h
  obtain ⟨c0, hc0, rfl⟩ := List.mem_map.mp hl
  exact ⟨c0, hc0, hc⟩

/-- Characters of the joined word string: a separator, a word character, or
the image of a word head under `uUpper` (camel style). -/
theorem mem_joinStyle {c : Char} {env : UnicodeEnv} {st : Style}
    {ws : List (List Char)} (h : c ∈ joinStyle env st ws) :
    c = '-' ∨ c = '_' ∨ (∃ w ∈ ws, c ∈ w) ∨
      (∃ w ∈ ws, ∃ c0, c0 ∈ w ∧ c ∈ env.uUpper c0) := by
  cases st with
  | kebab =>
    rcases mem_intercalate '-' ws h with h1 | h2
    · exact Or.inl h1
    · exact Or.inr (Or.inr (Or.inl h2))
  | snake =>
    rcases mem_intercalate '_' ws h with h1 | h2
    · exact Or.inr (Or.inl h1)
    · exact Or.inr (Or.inr (Or.inl h2))
  | camel =>
    rw [joinStyle.eq_def] at h
    simp only at h
    cases ws with
    | nil => simp at h
    | cons w rest =>
      rcases List.mem_append.mp h with h1 | h2
      · exact Or.inr (Or.inr (Or.inl ⟨w, by simp, h1⟩))
      · obtain ⟨l, hl, hc⟩ := List.mem_flatten.mp h2
        obtain ⟨w', hw', rfl⟩ := List.mem_map.mp hl
        rw [capitalizeWord.eq_def] at hc
        cases w' with
        | nil => simp at hc
        | cons c0 r0 =>
          simp only at hc
          rcases List.mem_append.mp hc with h3 | h4
          · exact Or.inr (Or.inr (Or.inr ⟨c0 :: r0, by simp [hw'], c0, by simp, h3⟩))
          · exact Or.inr (Or.inr (Or.inl ⟨c0 :: r0, by simp [hw'], by simp [h4]⟩))

theorem mem_restore {c : Char} {x : List Char} (h : c ∈ restore_version_dots x) :
    c = '.' ∨ c ∈ x := by
  rw [restore_version_dots] at h
  obtain ⟨d, hd, hc⟩ := List.mem_map.mp h
  by_cases hdp : d = VERSION_DOT
  · rw [if_pos hdp] at hc; exact Or.inl hc.symm
  · rw [if_neg hdp] at hc; exact Or.inr (hc ▸ hd)

/-- Characters of a word produced by `slugWords` are `uLower`-images of
non-separator characters. -/
theorem mem_slugWords {c : Char} {env : UnicodeEnv} {opts : SlugifyOptions}
    {b w : List Char} (hw : w ∈ slugWords env opts b) (hc : c ∈ w) :
    ∃ c0, isSepChar env opts.keep_unicode c0 = false ∧ c ∈ env.uLower c0 := by
  rw [slugWords] at hw
  obtain ⟨w0, hw0, rfl⟩ := List.mem_map.mp hw
  obtain ⟨c0, hc0, hcl⟩ := mem_lowerWord hc
  have hmem := List.mem_filter.mp hw0
  exact ⟨c0, splitStr_chars _ _ _ hmem.1 c0 hc0, hcl⟩

theorem alnum_ascii {c : Char} (h : c.isAlphanum = true) : c.toNat < 128 := by
  simp [Char.isAlphanum, Char.isAlpha, Char.isUpper, Char.isLower, Char.isDigit] at h
  rcases h with (⟨_, h⟩ | ⟨_, h⟩) | ⟨_, h⟩ <;>
  · have h2 := UInt32.toNat_le_of_le (by decide) h
    simp only [Char.toNat]
    exact Nat.lt_of_le_of_lt h2 (by norm_num)

theorem isSepChar_false {env : UnicodeEnv} {ku : Bool} {c0 : Char}
    (h : isSepChar env ku c0 = false) :
    (if ku then env.uAlnum c0 else c0.isAlphanum) = true ∨ c0 = VERSION_DOT := by
  by_cases hph : c0 = VERSION_DOT
  · exact Or.inr hph
  · left
    rw [isSepChar] at h
    cases ku <;> simp_all

/-- Decomposition of the characters of a `slugify` output: each one comes from
the extension, is the restored or dotfile dot, or sits in the joined words. -/
theorem mem_slugify {c : Char} {env : UnicodeEnv} {f : List Char}
    {opts : SlugifyOptions} (h : c ∈ slugify env f opts) :
    c ∈ (split_extension f).2 ∨ c = '.' ∨
    c ∈ joinStyle env opts.style (slugWords env opts (split_extension f).1) := by
  simp only [slugify] at h
  by_cases hf : f.isEmpty = true
  · rw [if_pos hf] at h; simp at h
  · rw [if_neg hf] at h
    by_cases hb : (split_extension f).1.isEmpty = true
    · rw [if_pos hb] at h
      have happ := split_extension_append f
      rw [List.isEmpty_iff.mp hb, List.nil_append] at happ
      refine Or.inl ?_
      rw [happ]
      exact h
    · rw [if_neg hb] at h
      by_cases hw : (slugWords env opts (split_extension f).1).isEmpty = true
      · rw [if_pos hw] at h; exact Or.inl h
      · rw [if_neg hw] at h
        rcases List.mem_append.mp h with h1 | h2
        · have h1' := mem_truncate_base _ _ h1
          by_cases hd : ((split_extension f).1.head? == some '.') = true
          · rw [if_pos hd] at h1'
            rcases List.mem_cons.mp h1' with h3 | h4
            · exact Or.inr (Or.inl h3)
            · rcases mem_restore h4 with h5 | h6
              · exact Or.inr (Or.inl h5)
              · exact Or.inr (Or.inr h6)
          · rw [if_neg hd] at h1'
            rcases mem_restore h1' with h5 | h6
            · exact Or.inr (Or.inl h5)
            · exact Or.inr (Or.inr h6)
        · exact Or.inl h2

/-- C3 (**corrected**): the unconditional safety property fails because the
extension component is reattached verbatim (see the counterexample).  It holds
under the hypothesis that the extension component of the input is clean: then
no output character is shell-dangerous (for either `keep_unicode` value, given
the contracts satisfied by the Rust Unicode operations), and with
`keep_unicode = false` and an ASCII extension the output is pure ASCII. -/
theorem claim_C3_amended (env : UnicodeEnv) (f : List Char) (opts : SlugifyOptions)
    (hAl : ∀ c ∈ forbiddenChars, env.uAlnum c = false)
    (hLo : ∀ c d, d ∈ env.uLower c → d ∈ forbiddenChars → c ∈ forbiddenChars)
    (hUp : ∀ c d, d ∈ env.uUpper c → d ∈ forbiddenChars → c ∈ forbiddenChars)
    (hext : ∀ c ∈ (split_extension f).2, c ∉ forbiddenChars) :
    (∀ c ∈ slugify env f opts, c ∉ forbiddenChars) ∧
    (opts.keep_unicode = false →
      (∀ c : Char, c.toNat < 128 → env.uLower c = [c.toLower]) →
      (∀ c : Char, c.toNat < 128 → env.uUpper c = [c.toUpper]) →
      (∀ c ∈ (split_extension f).2, c.toNat < 128) →
      ∀ c ∈ slugify env f opts, c.toNat < 128) := by
  have hnf : ∀ c0 : Char, isSepChar env opts.keep_unicode c0 = false →
      c0 ∉ forbiddenChars := by
    intro c0 hsep hc0
    rcases isSepChar_false hsep with halnum | hph
    · cases hku : opts.keep_unicode with
      | false =>
        rw [hku, if_neg (by simp)] at halnum
        rw [forbidden_not_alnum c0 hc0] at halnum
        exact absurd halnum (by simp)
      | true =>
        rw [hku, if_pos rfl] at halnum
        rw [hAl c0 hc0] at halnum
        exact absurd halnum (by simp)
    · subst hph
      exact absurd hc0 (by decide)
  constructor
  · intro c hc hforb
    rcases mem_slugify hc with hx | hdot | hj
    · exact hext c hx hforb
    · subst hdot; exact absurd hforb (by decide)
    · rcases mem_joinStyle hj with h1 | h2 | ⟨w, hw, hcw⟩ | ⟨w, hw, c1, hc1, hupper⟩
      · subst h1; exact absurd hforb (by decide)
      · subst h2; exact absurd hforb (by decide)
      · obtain ⟨c0, hsep, hcl⟩ := mem_slugWords hw hcw
        exact hnf c0 hsep (hLo c0 c hcl hforb)
      · obtain ⟨c0, hsep, hcl⟩ := mem_slugWords hw hc1
        exact hnf c0 hsep (hLo c0 c1 hcl (hUp c1 c hupper hforb))
  · intro hku hLoA hUpA hextA c hc
    have hwordA : ∀ c0 : Char, isSepChar env opts.keep_unicode c0 = false →
        c0.toNat < 128 := by
      intro c0 hsep
      rcases isSepChar_false hsep with halnum | hph
      · rw [hku, if_neg (by simp)] at halnum
        exact alnum_ascii halnum
      · subst hph; decide
    rcases mem_slugify hc with hx | hdot | hj
    · exact hextA c hx
    · subst hdot; decide
    · rcases mem_joinStyle hj with h1 | h2 | ⟨w, hw, hcw⟩ | ⟨w, hw, c1, hc1, hupper⟩
      · subst h1; decide
      · subst h2; decide
      · obtain ⟨c0, hsep, hcl⟩ := mem_slugWords hw hcw
        have hc0a := hwordA c0 hsep
        rw [hLoA c0 hc0a, List.mem_singleton] at hcl
        subst hcl
        exact toLower_ascii hc0a
      · obtain ⟨c0, hsep, hcl⟩ := mem_slugWords hw hc1
        have hc0a := hwordA c0 hsep
        rw [hLoA c0 hc0a, List.mem_singleton] at hcl
        subst hcl
        have hc1a : (Char.toLower c0).toNat < 128 := toLower_ascii hc0a
        rw [hUpA _ hc1a, List.mem_singleton] at hupper
        subst hupper
        exact toUpper_ascii hc1a

/-- C3, the counterexample: the extension passes through verbatim, so
`slugify "a.$"` keeps the shell-dangerous `$`. -/
theorem claim_C3_counterexample :
    '$' ∈ forbiddenChars ∧
    '$' ∈ slugify asciiEnv "a.$".toList ⟨Style.kebab, false⟩ := by
  refine ⟨by decide, ?_⟩
  rw [slugify_eq_pd]
  decide

/-- C3, witness for the amended claim at a concrete input. -/
theorem claim_C3_witness :
    (∀ c ∈ slugify asciiEnv "My File.txt".toList ⟨Style.kebab, false⟩,
      c ∉ forbiddenChars) ∧
    (∀ c ∈ slugify asciiEnv "My File.txt".toList ⟨Style.kebab, false⟩,
      c.toNat < 128) := by
  have h := claim_C3_amended asciiEnv "My File.txt".toList ⟨Style.kebab, false⟩
    forbidden_not_alnum
    (fun c d hd hf => toLower_forbidden (by
      rw [List.mem_singleton.mp hd] at hf; exact hf))
    (fun c d hd hf => toUpper_forbidden (by
      rw [List.mem_singleton.mp hd] at hf; exact hf))
    (by decide)
  exact ⟨h.1, h.2 rfl (fun c _ => rfl) (fun c _ => rfl) (by decide)⟩

theorem char_toNat_inj {a b : Char} (h : a.toNat = b.toNat) : a = b := by
  apply Char.eq_of_val_eq
  have : a.val.toBitVec = b.val.toBitVec := by
    apply BitVec.eq_of_toNat_eq
    exact h
  exact UInt32.eq_of_toBitVec_eq this

theorem uint32_le_iff_right {n : UInt32} {m : Nat} (h : m < UInt32.size) :
    n ≤ UInt32.ofNat m ↔ n.toNat ≤ m := by
  simp [UInt32.le_def, BitVec.le_def, UInt32.toNat, UInt32.toBitVec_eq_of_lt h]

theorem uint32_le_iff_left {n : UInt32} {m : Nat} (h : m < UInt32.size) :
    UInt32.ofNat m ≤ n ↔ m ≤ n.toNat := by
  simp [UInt32.le_def, BitVec.le_def, UInt32.toNat, UInt32.toBitVec_eq_of_lt h]

theorem isDigit_iff (c : Char) :
    c.isDigit = true ↔ 48 ≤ c.toNat ∧ c.toNat ≤ 57 := by
  rw [Char.isDigit]
  rw [Bool.and_eq_true, decide_eq_true_iff, decide_eq_true_iff]
  constructor
  · rintro ⟨h1, h2⟩
    exact ⟨(uint32_le_iff_left (by norm_num)).mp h1, (uint32_le_iff_right (by norm_num)).mp h2⟩
  · rintro ⟨h1, h2⟩
    exact ⟨(uint32_le_iff_left (by norm_num)).mpr h1, (uint32_le_iff_right (by norm_num)).mpr h2⟩

theorem isAlphanum_iff (c : Char) :
    c.isAlphanum = true ↔
      (48 ≤ c.toNat ∧ c.toNat ≤ 57) ∨ (65 ≤ c.toNat ∧ c.toNat ≤ 90) ∨
      (97 ≤ c.toNat ∧ c.toNat ≤ 122) := by
  rw [Char.isAlphanum, Char.isAlpha, Char.isUpper, Char.isLower]
  simp only [Bool.or_eq_true, Bool.and_eq_true, decide_eq_true_iff]
  rw [← isDigit_iff, Char.isDigit]
  simp only [Bool.and_eq_true, decide_eq_true_iff]
  constructor
  · rintro ((⟨h1, h2⟩ | ⟨h1, h2⟩) | ⟨h1, h2⟩)
    · exact Or.inr (Or.inl ⟨(uint32_le_iff_left (by norm_num)).mp h1,
        (uint32_le_iff_right (by norm_num)).mp h2⟩)
    · exact Or.inr (Or.inr ⟨(uint32_le_iff_left (by norm_num)).mp h1,
        (uint32_le_iff_right (by norm_num)).mp h2⟩)
    · exact Or.inl ⟨(uint32_le_iff_left (by norm_num)).mp h1,
        (uint32_le_iff_right (by norm_num)).mp h2⟩
  · rintro (⟨h1, h2⟩ | ⟨h1, h2⟩ | ⟨h1, h2⟩)
    · exact Or.inr ⟨(uint32_le_iff_left (by norm_num)).mpr h1,
        (uint32_le_iff_right (by norm_num)).mpr h2⟩
    · exact Or.inl (Or.inl ⟨(uint32_le_iff_left (by norm_num)).mpr h1,
        (uint32_le_iff_right (by norm_num)).mpr h2⟩)
    · exact Or.inl (Or.inr ⟨(uint32_le_iff_left (by norm_num)).mpr h1,
        (uint32_le_iff_right (by norm_num)).mpr h2⟩)

theorem toLower_ph_iff (c : Char) :
    c.toLower = VERSION_DOT ↔ c = VERSION_DOT := by
  constructor
  · intro h
    rcases toLower_cases c with he | ⟨h1, h2, _⟩
    · rwa [he] at h
    · exact absurd (congrArg Char.toNat h) (by
        rw [show VERSION_DOT.toNat = 1 from rfl]; omega)
  · intro h
    subst h
    rfl

theorem toLower_digit (c : Char) : c.toLower.isDigit = c.isDigit := by
  rcases toLower_cases c with he | ⟨h1, h2, h3, h4⟩
  · rw [he]
  · have hl : c.toLower.isDigit = false := by
      rw [Bool.eq_false_iff]
      intro hd
      rw [isDigit_iff] at hd
      omega
    have hc : c.isDigit = false := by
      rw [Bool.eq_false_iff]
      intro hd
      rw [isDigit_iff] at hd
      omega
    rw [hl, hc]

theorem toLower_alnum (c : Char) (h : c.isAlphanum = true) :
    c.toLower.isAlphanum = true := by
  rcases toLower_cases c with he | ⟨h1, h2, _⟩
  · rwa [he]
  · rw [isAlphanum_iff]
    exact Or.inr (Or.inr ⟨h1, h2⟩)

theorem toLower_idem (c : Char) : c.toLower.toLower = c.toLower := by
  rcases toLower_cases c with he | ⟨h1, h2, _⟩
  · rw [he, he]
  · rw [Char.toLower]
    rw [if_neg (by omega)]

/-- The neighbor relation of placeholder flanking: a placeholder always sits
between two digits. -/
def RPH (a b : Char) : Prop :=
  (b = VERSION_DOT → a.isDigit = true) ∧ (a = VERSION_DOT → b.isDigit = true)

/-- The neighbor relation of protected-dot flanking after restoration. -/
def RD (a b : Char) : Prop :=
  (b = '.' → a.isDigit = true) ∧ (a = '.' → b.isDigit = true)

/-- A word of the ASCII pipeline after lower-casing: nonempty, made of
alphanumerics and flanked placeholders, fixed by lower-casing. -/
def GoodWord (w : List Char) : Prop :=
  w ≠ [] ∧
  (∀ c ∈ w, (c.isAlphanum = true ∨ c = VERSION_DOT) ∧ c.toLower = c) ∧
  List.Chain' RPH w ∧
  w.head? ≠ some VERSION_DOT ∧ w.getLast? ≠ some VERSION_DOT

theorem pdAux_eq_nil_iff (b : Bool) (x : List Char) : pdAux b x = [] ↔ x = [] := by
  cases x with
  | nil => simp [pdAux]
  | cons c r => rw [pdAux]; split <;> simp

theorem pdAux_head_of_digit {b : Bool} {x : List Char} {d : Char}
    (hx : x.head? = some d) (hd : d.isDigit = true) :
    (pdAux b x).head? = some d := by
  cases x with
  | nil => simp at hx
  | cons c r =>
    simp only [List.head?_cons, Option.some.injEq] at hx
    subst hx
    rw [pdAux, if_neg (by simp [digit_ne_dot hd])]
    rfl

theorem pdAux_head_ph {b : Bool} {x : List Char}
    (hx : VERSION_DOT ∉ x) (h : (pdAux b x).head? = some VERSION_DOT) : b = true := by
  cases x with
  | nil => simp [pdAux] at h
  | cons c r =>
    rw [pdAux] at h
    by_cases hcond : ((c == '.') && b && headDigit r) = true
    · exact (Bool.and_eq_true _ _).mp ((Bool.and_eq_true _ _).mp hcond).1 |>.2
    · rw [if_neg hcond] at h
      simp only [List.head?_cons, Option.some.injEq] at h
      exact absurd (by simp [h]) hx

theorem ph_not_digit : VERSION_DOT.isDigit = false := by decide

theorem pdAux_flank (b : Bool) (x : List Char) (hx : VERSION_DOT ∉ x) :
    List.Chain' RPH (pdAux b x) ∧ (pdAux b x).getLast? ≠ some VERSION_DOT ∧
    ((pdAux b x).head? = some VERSION_DOT → b = true) := by
  induction x generalizing b with
  | nil => simp [pdAux]
  | cons c r ih =>
    have hcph : c ≠ VERSION_DOT := fun h => hx (by simp [h])
    have hrph : VERSION_DOT ∉ r := fun h => hx (by simp [h])
    obtain ⟨ihc, ihl, ihh⟩ := ih b hrph
    rw [pdAux]
    by_cases hcond : ((c == '.') && b && headDigit r) = true
    · rw [if_pos hcond]
      have hb : b = true := (Bool.and_eq_true _ _).mp ((Bool.and_eq_true _ _).mp hcond).1 |>.2
      have hhd : headDigit r = true := (Bool.and_eq_true _ _).mp hcond |>.2
      obtain ⟨d, r', rfl⟩ : ∃ d r', r = d :: r' := by
        cases r with
        | nil => simp [headDigit] at hhd
        | cons d r' => exact ⟨d, r', rfl⟩
      have hd : d.isDigit = true := by simpa [headDigit] using hhd
      obtain ⟨ihc', ihl', _⟩ := ih false hrph
      refine ⟨?_, ?_, fun _ => hb⟩
      · rw [List.chain'_cons']
        refine ⟨?_, ihc'⟩
        intro y hy
        rw [pdAux_head_of_digit (by rfl) hd] at hy
        simp only [Option.mem_def, Option.some.injEq] at hy
        subst hy
        exact ⟨fun hdp => absurd (hdp ▸ hd) (by rw [hdp] at hd; simp [ph_not_digit] at hd),
               fun _ => hd⟩
      · have hne : pdAux false (d :: r') ≠ [] := by
          rw [Ne, pdAux_eq_nil_iff]; simp
        cases hpd : pdAux false (d :: r') with
        | nil => exact absurd hpd hne
        | cons z zs =>
          rw [List.getLast?_cons_cons]
          rw [hpd] at ihl'
          exact ihl'
    · rw [if_neg hcond]
      obtain ⟨ihc2, ihl2, ihh2⟩ := ih c.isDigit hrph
      refine ⟨?_, ?_, ?_⟩
      · rw [List.chain'_cons']
        refine ⟨?_, ihc2⟩
        intro y hy
        refine ⟨fun hyp => ?_, fun hcp => absurd hcp hcph⟩
        subst hyp
        exact ihh2 (by simpa using hy)
      · cases hpd : pdAux c.isDigit r with
        | nil => simpa using hcph
        | cons z zs =>
          rw [List.getLast?_cons_cons]
          rw [hpd] at ihl2
          exact ihl2
      · intro h
        simp only [List.head?_cons, Option.some.injEq] at h
        exact absurd h hcph

theorem splitStr_ne_nil (p : Char → Bool) (l : List Char) : splitStr p l ≠ [] := by
  cases l with
  | nil => simp [splitStr]
  | cons c r =>
    rw [splitStr]
    by_cases hpc : p c
    · simp [hpc]
    · rw [if_neg hpc]
      cases hs : splitStr p r <;> simp

theorem splitStr_first_head (p : Char → Bool) {l s : List Char} {ss : List (List Char)}
    (heq : splitStr p l = s :: ss) (hne : s ≠ []) : s.head? = l.head? := by
  cases l with
  | nil =>
    rw [splitStr] at heq
    simp only [List.cons.injEq] at heq
    exact absurd heq.1.symm hne
  | cons c r =>
    rw [splitStr] at heq
    by_cases hpc : p c
    · rw [if_pos hpc] at heq
      simp only [List.cons.injEq] at heq
      exact absurd heq.1.symm hne
    · rw [if_neg hpc] at heq
      cases hs : splitStr p r with
      | nil => exact absurd hs (splitStr_ne_nil p r)
      | cons s1 ss1 =>
        rw [hs] at heq
        simp only [List.cons.injEq] at heq
        rw [← heq.1]
        rfl

theorem splitStr_first_nil (p : Char → Bool) {l : List Char} {ss : List (List Char)}
    (heq : splitStr p l = [] :: ss) :
    l = [] ∨ ∃ d r, l = d :: r ∧ p d = true := by
  cases l with
  | nil => exact Or.inl rfl
  | cons c r =>
    rw [splitStr] at heq
    by_cases hpc : p c
    · exact Or.inr ⟨c, r, rfl, hpc⟩
    · rw [if_neg hpc] at heq
      cases hs : splitStr p r with
      | nil => exact absurd hs (splitStr_ne_nil p r)
      | cons s1 ss1 =>
        rw [hs] at heq
        simp at heq

/-- Transport of placeholder flanking through `splitStr`: each segment is
flanked, with a possible placeholder head only for the first segment when the
whole string starts with the placeholder. -/
theorem splitStr_flank (p : Char → Bool) (hp : ∀ c, p c = true → c.isDigit = false) :
    ∀ l : List Char, ∀ s : List Char, ∀ ss : List (List Char),
    List.Chain' RPH l → l.getLast? ≠ some VERSION_DOT →
    splitStr p l = s :: ss →
    (List.Chain' RPH s ∧ s.getLast? ≠ some VERSION_DOT ∧
      (s.head? = some VERSION_DOT → l.head? = some VERSION_DOT)) ∧
    (∀ w ∈ ss, List.Chain' RPH w ∧ w.head? ≠ some VERSION_DOT ∧
      w.getLast? ≠ some VERSION_DOT)
  | [] => by
    intro s ss _ _ heq
    rw [splitStr] at heq
    simp only [List.cons.injEq] at heq
    obtain ⟨h1, h2⟩ := heq
    subst h1
    subst h2
    exact ⟨⟨List.chain'_nil, by simp, by simp⟩, by simp⟩
  | c :: r => by
    intro s ss hch hlast heq
    rw [splitStr] at heq
    by_cases hpc : p c
    · rw [if_pos hpc] at heq
      simp only [List.cons.injEq] at heq
      obtain ⟨hs, hss⟩ := heq
      subst hss
      refine ⟨by rw [← hs]; exact ⟨List.chain'_nil, by simp, by simp⟩, ?_⟩
      cases r with
      | nil =>
        intro w hw
        rw [splitStr] at hw
        simp only [List.mem_singleton] at hw
        subst hw
        exact ⟨List.chain'_nil, by simp, by simp⟩
      | cons d r2 =>
        intro w hw
        obtain ⟨s1, ss1, heq1⟩ := (by
          cases h : splitStr p (d :: r2) with
          | nil => exact absurd h (splitStr_ne_nil p _)
          | cons a b => exact ⟨a, b, rfl⟩ :
          ∃ a b, splitStr p (d :: r2) = a :: b)
        have hch2 : List.Chain' RPH (d :: r2) := (List.chain'_cons.mp hch).2
        have hl2 : (d :: r2).getLast? ≠ some VERSION_DOT := by
          rwa [List.getLast?_cons_cons] at hlast
        obtain ⟨⟨hc1, hl1, hh1⟩, hrest⟩ :=
          splitStr_flank p hp (d :: r2) s1 ss1 hch2 hl2 heq1
        rw [heq1] at hw
        rcases List.mem_cons.mp hw with rfl | hw2
        · refine ⟨hc1, ?_, hl1⟩
          intro hheadph
          have hdph := hh1 hheadph
          simp only [List.head?_cons, Option.some.injEq] at hdph
          have hcd := (List.chain'_cons.mp hch).1
          have := hcd.1 hdph
          rw [hp c hpc] at this
          exact absurd this (by simp)
        · exact hrest w hw2
    · rw [if_neg hpc] at heq
      cases hs : splitStr p r with
      | nil => exact absurd hs (splitStr_ne_nil p r)
      | cons s1 ss1 =>
        rw [hs] at heq
        simp only [List.cons.injEq] at heq
        obtain ⟨hseq, hsseq⟩ := heq
        subst hsseq
        cases r with
        | nil =>
          rw [splitStr] at hs
          simp only [List.cons.injEq] at hs
          obtain ⟨h1, h2⟩ := hs
          subst h1
          subst h2
          rw [← hseq]
          refine ⟨⟨List.chain'_singleton c, ?_, ?_⟩, by simp⟩
          · simpa using hlast
          · intro h
            simp only [List.head?_cons] at h ⊢
            exact h
        | cons d r2 =>
          have hch2 : List.Chain' RPH (d :: r2) := (List.chain'_cons.mp hch).2
          have hl2 : (d :: r2).getLast? ≠ some VERSION_DOT := by
            rwa [List.getLast?_cons_cons] at hlast
          obtain ⟨⟨hc1, hl1, hh1⟩, hrest⟩ :=
            splitStr_flank p hp (d :: r2) s1 ss1 hch2 hl2 hs
          refine ⟨?_, hrest⟩
          rw [← hseq]
          refine ⟨?_, ?_, ?_⟩
          · rw [List.chain'_cons']
            refine ⟨?_, hc1⟩
            intro y hy
            have hhead : s1.head? = some d := by
              rw [splitStr_first_head p hs (by
                intro hnil
                subst hnil
                simp at hy)]
              rfl
            rw [hhead] at hy
            simp only [Option.mem_def, Option.some.injEq] at hy
            subst hy
            exact (List.chain'_cons.mp hch).1
          · cases hs1 : s1 with
            | nil =>
              subst hs1
              rcases splitStr_first_nil p hs with h | ⟨d', r', hdr, hpd⟩
              · simp at h
              · simp only [List.cons.injEq] at hdr
                obtain ⟨h1, h2⟩ := hdr
                subst h1
                subst h2
                simp only [List.getLast?_singleton, Ne, Option.some.injEq]
                intro hcph
                subst hcph
                have hcd := (List.chain'_cons.mp hch).1
                have := hcd.2 rfl
                rw [hp d hpd] at this
                exact absurd this (by simp)
            | cons z zs =>
              rw [List.getLast?_cons_cons]
              rw [hs1] at hl1
              exact hl1
          · intro h
            simp only [List.head?_cons] at h ⊢
            exact h

theorem splitStr_word (p : Char → Bool) : ∀ w : List Char,
    (∀ c ∈ w, p c = false) → splitStr p w = [w]
  | [] => fun _ => rfl
  | c :: w' => fun h => by
    rw [splitStr, if_neg (by simp [h c (by simp)])]
    rw [splitStr_word p w' (fun x hx => h x (by simp [hx]))]

theorem splitStr_word_append (p : Char → Bool) (sep : Char) (hsep : p sep = true)
    (rest : List Char) : ∀ w : List Char, (∀ c ∈ w, p c = false) →
    splitStr p (w ++ sep :: rest) = w :: splitStr p rest
  | [] => by
    intro _
    rw [List.nil_append, splitStr, if_pos hsep]
  | c :: w' => by
    intro h
    rw [List.cons_append, splitStr, if_neg (by simp [h c (by simp)])]
    rw [splitStr_word_append p sep hsep rest w' (fun x hx => h x (by simp [hx]))]

theorem intercalate_singleton (w : List Char) :
    List.intercalate [Char.ofNat 45] [w] = w := by
  simp [List.intercalate]

theorem splitStr_intercalate (p : Char → Bool) (sep : Char) (hsep : p sep = true) :
    ∀ ws : List (List Char), ws ≠ [] → (∀ w ∈ ws, ∀ c ∈ w, p c = false) →
    splitStr p (List.intercalate [sep] ws) = ws
  | [] => by intro h; exact absurd rfl h
  | [w] => by
    intro _ hws
    have : List.intercalate [sep] [w] = w := by simp [List.intercalate]
    rw [this]
    exact splitStr_word p w (hws w (by simp))
  | w :: w2 :: ws => by
    intro _ hws
    rw [intercalate_cons_cons, List.append_assoc, List.singleton_append]
    rw [splitStr_word_append p sep hsep _ w (hws w (by simp))]
    rw [splitStr_intercalate p sep hsep (w2 :: ws) (by simp)
      (fun x hx => hws x (by simp [List.mem_cons.mp hx]))]

theorem filter_nonempty {ws : List (List Char)} (h : ∀ w ∈ ws, w ≠ []) :
    ws.filter (fun w => !w.isEmpty) = ws := by
  rw [List.filter_eq_self]
  intro w hw
  simp [h w hw]

/-- Replace a placeholder with a dot (the mapping of `restore_version_dots`). -/
def phToDot (c : Char) : Char := if c = VERSION_DOT then '.' else c

theorem restore_eq_map (s : List Char) :
    restore_version_dots s = s.map phToDot := rfl

theorem chain'_rd_of_rph : ∀ J : List Char, List.Chain' RPH J → '.' ∉ J →
    List.Chain' RD (J.map phToDot)
  | [] => by simp
  | [c] => by simp
  | a :: b :: J => fun hch hnd => by
    rw [List.map_cons, List.map_cons, List.chain'_cons]
    obtain ⟨hab, hrest⟩ := List.chain'_cons.mp hch
    have hand : '.' ∉ b :: J := fun h => hnd (List.mem_cons_of_mem _ h)
    refine ⟨⟨?_, ?_⟩, ?_⟩
    · intro hbd
      have hb : b = VERSION_DOT := by
        by_cases h : b = VERSION_DOT
        · exact h
        · rw [phToDot, if_neg h] at hbd
          exact absurd (by simp [hbd]) hand
      have ha := hab.1 hb
      have haph : a ≠ VERSION_DOT := fun hph => by
        rw [hph] at ha; simp [ph_not_digit] at ha
      rwa [phToDot, if_neg haph]
    · intro had
      have ha : a = VERSION_DOT := by
        by_cases h : a = VERSION_DOT
        · exact h
        · rw [phToDot, if_neg h] at had
          exact absurd (by simp [had]) hnd
      have hb := hab.2 ha
      have hbph : b ≠ VERSION_DOT := fun hph => by
        rw [hph] at hb; simp [ph_not_digit] at hb
      rwa [phToDot, if_neg hbph]
    · rw [← List.map_cons]
      exact chain'_rd_of_rph (b :: J) hrest hand

theorem phToDot_ne_dot {c : Char} (hph : c ≠ VERSION_DOT) (hd : c ≠ '.') :
    phToDot c ≠ '.' := by
  rw [phToDot, if_neg hph]
  exact hd

theorem restore_flank {J : List Char} (hch : List.Chain' RPH J)
    (hh : J.head? ≠ some VERSION_DOT) (hl : J.getLast? ≠ some VERSION_DOT)
    (hnodot : '.' ∉ J) :
    List.Chain' RD (restore_version_dots J) ∧
    (restore_version_dots J).head? ≠ some '.' ∧
    (restore_version_dots J).getLast? ≠ some '.' := by
  rw [restore_eq_map]
  refine ⟨chain'_rd_of_rph J hch hnodot, ?_, ?_⟩
  · rw [List.head?_map]
    cases hj : J.head? with
    | none => simp
    | some c =>
      simp only [Option.map_some', Ne, Option.some.injEq]
      have hcph : c ≠ VERSION_DOT := fun h => hh (by rw [hj, h])
      have hcd : c ≠ '.' := fun h => hnodot (by
        subst h
        cases J with
        | nil => simp at hj
        | cons z zs =>
          simp only [List.head?_cons, Option.some.injEq] at hj
          simp [hj])
      exact phToDot_ne_dot hcph hcd
  · rw [List.getLast?_map]
    cases hj : J.getLast? with
    | none => simp
    | some c =>
      simp only [Option.map_some', Ne, Option.some.injEq]
      have hcph : c ≠ VERSION_DOT := fun h => hl (by rw [hj, h])
      have hcd : c ≠ '.' := fun h => hnodot (by
        subst h
        exact List.mem_of_mem_getLast? hj)
      exact phToDot_ne_dot hcph hcd

/-- The neighbor rule re-protects exactly the flanked dots. -/
theorem pdAux_map_dotToPH : ∀ (s : List Char) (b : Bool),
    List.Chain' RD s → s.getLast? ≠ some '.' →
    (s.head? = some '.' → b = true ∧ headDigit s.tail = true) →
    pdAux b s = s.map dotToPH
  | [] => by intro b _ _ _; rfl
  | c :: r => fun b hch hlast hhead => by
    by_cases hc : c = '.'
    · subst hc
      obtain ⟨hb, hhd⟩ := hhead rfl
      obtain ⟨d, r', rfl⟩ : ∃ d r', r = d :: r' := by
        cases r with
        | nil => simp [headDigit] at hhd
        | cons d r' => exact ⟨d, r', rfl⟩
      have hd : d.isDigit = true := by simpa [headDigit] using hhd
      rw [pdAux, if_pos (by simp [hb]; simpa [headDigit] using hhd)]
      rw [List.map_cons, dotToPH_dot]
      congr 1
      apply pdAux_map_dotToPH (d :: r') false (List.chain'_cons.mp hch).2
      · rwa [List.getLast?_cons_cons] at hlast
      · intro hh
        simp only [List.head?_cons, Option.some.injEq] at hh
        exact absurd hh (digit_ne_dot hd)
    · rw [pdAux, if_neg (by simp [hc])]
      rw [List.map_cons, dotToPH_ne hc]
      congr 1
      cases r with
      | nil => rfl
      | cons d r' =>
        apply pdAux_map_dotToPH (d :: r') c.isDigit (List.chain'_cons.mp hch).2
        · rwa [List.getLast?_cons_cons] at hlast
        · intro hh
          simp only [List.head?_cons, Option.some.injEq] at hh
          subst hh
          obtain ⟨h1, h2⟩ := (List.chain'_cons.mp hch).1
          refine ⟨h1 rfl, ?_⟩
          cases r' with
          | nil =>
            rw [List.getLast?_cons_cons, List.getLast?_singleton] at hlast
            exact absurd rfl hlast
          | cons e r2 =>
            obtain ⟨_, h3⟩ := (List.chain'_cons.mp (List.chain'_cons.mp hch).2).1
            simpa [headDigit] using h3 rfl

theorem map_dot_ph_roundtrip : ∀ J : List Char, '.' ∉ J →
    (J.map phToDot).map dotToPH = J
  | [] => fun _ => rfl
  | c :: J => fun h => by
    rw [List.map_cons, List.map_cons]
    have hcd : c ≠ '.' := fun hc => h (by simp [hc])
    congr 1
    · by_cases hph : c = VERSION_DOT
      · rw [phToDot, if_pos hph, dotToPH_dot, hph]
      · rw [phToDot, if_neg hph, dotToPH_ne hcd]
    · exact map_dot_ph_roundtrip J (fun hm => h (by simp [hm]))

/-- Flanking of the joined word string. -/
theorem intercalate_flank (sep : Char) (hsd : sep ≠ VERSION_DOT) :
    ∀ ws : List (List Char), ws ≠ [] → (∀ w ∈ ws, GoodWord w) →
    List.Chain' RPH (List.intercalate [sep] ws) ∧
    (List.intercalate [sep] ws).head? ≠ some VERSION_DOT ∧
    (List.intercalate [sep] ws).getLast? ≠ some VERSION_DOT ∧
    List.intercalate [sep] ws ≠ []
  | [] => by intro h; exact absurd rfl h
  | [w] => by
    intro _ hws
    obtain ⟨hne, _, hch, hh, hl⟩ := hws w (by simp)
    have : List.intercalate [sep] [w] = w := by simp [List.intercalate]
    rw [this]
    exact ⟨hch, hh, hl, hne⟩
  | w :: w2 :: ws => by
    intro _ hws
    obtain ⟨hne, _, hch, hh, hl⟩ := hws w (by simp)
    obtain ⟨ihch, ihh, ihl, ihne⟩ := intercalate_flank sep hsd (w2 :: ws) (by simp)
      (fun x hx => hws x (by simp [List.mem_cons.mp hx]))
    rw [intercalate_cons_cons, List.append_assoc, List.singleton_append]
    refine ⟨?_, ?_, ?_, by simp [hne]⟩
    · rw [List.chain'_append]
      refine ⟨hch, ?_, ?_⟩
      · rw [List.chain'_cons']
        refine ⟨?_, ihch⟩
        intro y hy
        have hyph : y ≠ VERSION_DOT := by
          intro hyp
          subst hyp
          exact ihh (by simpa using hy)
        exact ⟨fun h => absurd h hyph, fun h => absurd h hsd⟩
      · intro x hx y hy
        simp only [List.head?_cons, Option.mem_def, Option.some.injEq] at hy
        subst hy
        have hxph : x ≠ VERSION_DOT := by
          intro hxp
          subst hxp
          exact hl (by simpa using hx)
        exact ⟨fun h => absurd h hsd, fun h => absurd h hxph⟩
    · rw [List.head?_append]
      cases hwh : w.head? with
      | none => exact absurd (List.head?_eq_none_iff.mp hwh) hne
      | some z =>
        rw [hwh] at hh
        simpa using hh
    · rw [List.getLast?_append_of_ne_nil _ (by simp)]
      cases hj : List.intercalate [sep] (w2 :: ws) with
      | nil => exact absurd hj ihne
      | cons z zs =>
        rw [List.getLast?_cons_cons]
        rw [hj] at ihl
        exact ihl

/-- Separator character of a non-camel style. -/
def styleSep : Style → Char
  | .kebab => '-'
  | .snake => '_'
  | .camel => '-'

theorem joinStyle_eq_intercalate (env : UnicodeEnv) (st : Style)
    (hst : st = Style.kebab ∨ st = Style.snake) (ws : List (List Char)) :
    joinStyle env st ws = List.intercalate [styleSep st] ws := by
  rcases hst with h | h <;> subst h <;> rfl

theorem lowerWord_cons (env : UnicodeEnv) (c : Char) (w : List Char) :
    lowerWord env (c :: w) = env.uLower c ++ lowerWord env w := by
  simp [lowerWord]

theorem lowerWord_fix {env : UnicodeEnv}
    (hLoA : ∀ c : Char, c.toNat < 128 → env.uLower c = [c.toLower]) :
    ∀ w : List Char, (∀ c ∈ w, (c.isAlphanum = true ∨ c = VERSION_DOT) ∧ c.toLower = c) →
    lowerWord env w = w
  | [] => fun _ => rfl
  | c :: w => fun h => by
    obtain ⟨hc1, hc2⟩ := h c (by simp)
    have hca : c.toNat < 128 := by
      rcases hc1 with ha | hp
      · exact alnum_ascii ha
      · subst hp; decide
    rw [lowerWord_cons, hLoA c hca, hc2, List.singleton_append]
    rw [lowerWord_fix hLoA w (fun x hx => h x (by simp [hx]))]

theorem map_mem_id {α : Type} (f : α → α) : ∀ l : List α, (∀ x ∈ l, f x = x) →
    l.map f = l
  | [] => fun _ => rfl
  | x :: l => fun h => by
    rw [List.map_cons, h x (by simp), map_mem_id f l (fun y hy => h y (by simp [hy]))]

theorem replaceBrackets_fix {s : List Char}
    (h : ∀ c ∈ s, BRACKETS.contains c = false) : replaceBrackets s = s := by
  rw [replaceBrackets]
  apply map_mem_id
  intro c hc
  rw [if_neg (by rw [h c hc]; simp)]

/-- Characters appearing in a good-word join after restoration. -/
theorem mem_assembled {env : UnicodeEnv} {st : Style} {ws : List (List Char)}
    {c : Char} (hst : st = Style.kebab ∨ st = Style.snake)
    (hws : ∀ w ∈ ws, GoodWord w)
    (h : c ∈ restore_version_dots (joinStyle env st ws)) :
    c = '.' ∨ c = styleSep st ∨
      (c.isAlphanum = true ∧ c.toLower = c ∧ c ≠ VERSION_DOT) := by
  rcases mem_restore h with h1 | h2
  · exact Or.inl h1
  · rw [joinStyle_eq_intercalate env st hst] at h2
    rcases mem_intercalate (styleSep st) ws h2 with h3 | ⟨w, hw, hcw⟩
    · exact Or.inr (Or.inl h3)
    · obtain ⟨hwc, hlc⟩ := (hws w hw).2.1 c hcw
      rcases hwc with ha | hp
      · refine Or.inr (Or.inr ⟨ha, hlc, ?_⟩)
        intro hph
        subst hph
        rw [isAlphanum_iff] at ha
        have h1 : VERSION_DOT.toNat = 1 := rfl
        omega
      · -- c is a placeholder: impossible after restore
        subst hp
        exact absurd h (restore_no_placeholder _)

theorem bracket_mem {c : Char} (h : BRACKETS.contains c = true) :
    c.toNat = 40 ∨ c.toNat = 41 ∨ c.toNat = 91 ∨ c.toNat = 93 ∨
    c.toNat = 123 ∨ c.toNat = 125 := by
  have hm : c ∈ BRACKETS := by simpa using h
  simp only [BRACKETS, List.mem_cons, List.not_mem_nil, or_false] at hm
  rcases hm with rfl | rfl | rfl | rfl | rfl | rfl <;> simp

theorem alnum_not_bracket {c : Char} (h : c.isAlphanum = true) :
    BRACKETS.contains c = false := by
  by_cases hb : BRACKETS.contains c = true
  · rw [isAlphanum_iff] at h
    rcases bracket_mem hb with h1 | h1 | h1 | h1 | h1 | h1 <;> omega
  · simpa using hb

theorem isSepChar_false_eval (env : UnicodeEnv) (c : Char) :
    isSepChar env false c = (!c.isAlphanum && c != VERSION_DOT) := by
  rw [isSepChar]
  rfl

theorem wordChar_not_sep {env : UnicodeEnv} {c : Char}
    (h : c.isAlphanum = true ∨ c = VERSION_DOT) :
    isSepChar env false c = false := by
  rw [isSepChar_false_eval]
  rcases h with h | h
  · simp [h]
  · subst h
    simp

theorem slugWords_ku_false (env : UnicodeEnv) (st : Style) (base : List Char) :
    slugWords env ⟨st, false⟩ base =
      ((splitStr (isSepChar env false)
        (preserve_version_dots (replaceBrackets (env.translit base)))).filter
        (fun w => !w.isEmpty)).map (lowerWord env) := rfl

/-- Re-slugging an assembled base (optionally dot-prefixed) recovers the same
word list, in ASCII mode with a kebab or snake separator. -/
theorem slugWords_assembled (env : UnicodeEnv) (st : Style)
    (hst : st = Style.kebab ∨ st = Style.snake)
    (hTr : ∀ s : List Char, (∀ c ∈ s, c.toNat < 128) → env.translit s = s)
    (hLoA : ∀ c : Char, c.toNat < 128 → env.uLower c = [c.toLower])
    (ws : List (List Char)) (hne : ws ≠ []) (hws : ∀ w ∈ ws, GoodWord w)
    (dotPre : Bool) :
    slugWords env ⟨st, false⟩
      ((if dotPre then ['.'] else []) ++
        restore_version_dots (joinStyle env st ws)) = ws := by
  have hsepph : styleSep st ≠ VERSION_DOT := by
    rcases hst with h | h <;> subst h <;> decide
  have hsepa : (styleSep st).toNat < 128 := by
    rcases hst with h | h <;> subst h <;> decide
  have hsepbr : BRACKETS.contains (styleSep st) = false := by
    rcases hst with h | h <;> subst h <;> decide
  have hJfl := intercalate_flank (styleSep st) hsepph ws hne hws
  obtain ⟨hJch, hJh, hJl, hJne⟩ := hJfl
  have hJchars : ∀ c ∈ List.intercalate [styleSep st] ws,
      c = styleSep st ∨ ((c.isAlphanum = true ∨ c = VERSION_DOT) ∧ c.toLower = c) := by
    intro c hc
    rcases mem_intercalate _ ws hc with h | ⟨w, hw, hcw⟩
    · exact Or.inl h
    · exact Or.inr ((hws w hw).2.1 c hcw)
  have hJnodot : '.' ∉ List.intercalate [styleSep st] ws := by
    intro h
    rcases hJchars '.' h with h1 | ⟨h2, _⟩
    · rcases hst with h' | h' <;> subst h' <;> simp [styleSep] at h1
    · rcases h2 with ha | hp
      · rw [isAlphanum_iff] at ha
        have : ('.').toNat = 46 := rfl
        omega
      · exact absurd hp (by decide)
  rw [joinStyle_eq_intercalate env st hst]
  obtain ⟨hRch, hRh, hRl⟩ :=
    restore_flank hJch hJh hJl hJnodot
  have hRmem : ∀ c ∈ restore_version_dots (List.intercalate [styleSep st] ws),
      c = '.' ∨ c = styleSep st ∨
        (c.isAlphanum = true ∧ c.toLower = c ∧ c ≠ VERSION_DOT) := by
    intro c hc
    rcases mem_restore hc with h1 | h2
    · exact Or.inl h1
    · rcases hJchars c h2 with h3 | ⟨h4, h5⟩
      · exact Or.inr (Or.inl h3)
      · rcases h4 with ha | hp
        · refine Or.inr (Or.inr ⟨ha, h5, ?_⟩)
          intro hph
          subst hph
          rw [isAlphanum_iff] at ha
          have h1 : VERSION_DOT.toNat = 1 := rfl
          omega
        · subst hp
          exact absurd hc (restore_no_placeholder _)
  have hBascii : ∀ c ∈ (if dotPre then ['.'] else []) ++
      restore_version_dots (List.intercalate [styleSep st] ws), c.toNat < 128 := by
    intro c hc
    rcases List.mem_append.mp hc with h1 | h2
    · cases dotPre with
      | false => simp at h1
      | true =>
        simp only [if_true, List.mem_singleton] at h1
        subst h1
        decide
    · rcases hRmem c h2 with h3 | h3 | ⟨h3, _, _⟩
      · subst h3; decide
      · subst h3; exact hsepa
      · exact alnum_ascii h3
  have hBbr : ∀ c ∈ (if dotPre then ['.'] else []) ++
      restore_version_dots (List.intercalate [styleSep st] ws),
      BRACKETS.contains c = false := by
    intro c hc
    rcases List.mem_append.mp hc with h1 | h2
    · cases dotPre with
      | false => simp at h1
      | true =>
        simp only [if_true, List.mem_singleton] at h1
        subst h1
        decide
    · rcases hRmem c h2 with h3 | h3 | ⟨h3, _, _⟩
      · subst h3; decide
      · subst h3; exact hsepbr
      · exact alnum_not_bracket h3
  have hwchars : ∀ w ∈ ws, ∀ c ∈ w, isSepChar env false c = false := by
    intro w hw c hc
    exact wordChar_not_sep ((hws w hw).2.1 c hc).1
  have hpsep : isSepChar env false (styleSep st) = true := by
    rw [isSepChar_false_eval]
    rcases hst with h | h <;> subst h <;> decide
  have hpdot : isSepChar env false '.' = true := by
    rw [isSepChar_false_eval]
    decide
  have hRJ : pdAux false (restore_version_dots (List.intercalate [styleSep st] ws))
      = List.intercalate [styleSep st] ws := by
    rw [pdAux_map_dotToPH _ false hRch hRl (fun h => absurd h hRh)]
    rw [restore_eq_map]
    exact map_dot_ph_roundtrip _ hJnodot
  rw [slugWords_ku_false]
  rw [hTr _ hBascii, replaceBrackets_fix hBbr, preserve_version_dots_eq, protectDots]
  cases dotPre with
  | false =>
    simp only [if_false, Bool.false_eq_true, List.nil_append]
    rw [hRJ]
    rw [splitStr_intercalate _ (styleSep st) hpsep ws hne hwchars]
    rw [filter_nonempty (fun w hw => (hws w hw).1)]
    apply map_mem_id
    intro w hw
    exact lowerWord_fix hLoA w (hws w hw).2.1
  | true =>
    simp only [if_true, List.singleton_append]
    rw [pdAux, if_neg (by simp)]
    rw [show Char.isDigit '.' = false from rfl, hRJ]
    rw [splitStr, if_pos hpdot]
    rw [splitStr_intercalate _ (styleSep st) hpsep ws hne hwchars]
    rw [List.filter_cons]
    simp only [List.isEmpty_nil, Bool.not_true, Bool.false_eq_true, if_false]
    rw [filter_nonempty (fun w hw => (hws w hw).1)]
    apply map_mem_id
    intro w hw
    exact lowerWord_fix hLoA w (hws w hw).2.1

theorem digit_alnum {c : Char} (h : c.isDigit = true) : c.isAlphanum = true := by
  rw [isDigit_iff] at h
  rw [isAlphanum_iff]
  omega

theorem sep_not_digit {env : UnicodeEnv} {c : Char}
    (h : isSepChar env false c = true) : c.isDigit = false := by
  by_cases hd : c.isDigit = true
  · rw [isSepChar_false_eval, digit_alnum hd] at h
    simp at h
  · simpa using hd

theorem toLower_ph : VERSION_DOT.toLower = VERSION_DOT := by decide

theorem lowerWord_map {env : UnicodeEnv}
    (hLoA : ∀ c : Char, c.toNat < 128 → env.uLower c = [c.toLower])
    (v : List Char) (hA : ∀ c ∈ v, c.toNat < 128) :
    lowerWord env v = v.map Char.toLower := by
  induction v with
  | nil => rfl
  | cons c r ih =>
    have hr := ih (fun x hx => hA x (List.mem_cons_of_mem _ hx))
    simp only [lowerWord, List.map_cons, List.flatten_cons] at hr ⊢
    rw [hLoA c (hA c (List.mem_cons_self _ _)), hr]
    rfl

theorem goodword_map_toLower {v : List Char}
    (hne : v ≠ [])
    (hall : ∀ c ∈ v, c.isAlphanum = true ∨ c = VERSION_DOT)
    (hch : List.Chain' RPH v)
    (hh : v.head? ≠ some VERSION_DOT) (hl : v.getLast? ≠ some VERSION_DOT) :
    GoodWord (v.map Char.toLower) := by
  refine ⟨by simpa using hne, ?_, ?_, ?_, ?_⟩
  · intro c hc
    rcases List.mem_map.mp hc with ⟨a, ha, rfl⟩
    rcases hall a ha with h1 | h1
    · exact ⟨Or.inl (toLower_alnum a h1), toLower_idem a⟩
    · subst h1
      rw [toLower_ph]
      exact ⟨Or.inr rfl, toLower_ph⟩
  · rw [List.chain'_map]
    refine hch.imp ?_
    intro a b hab
    constructor
    · intro hb
      rw [toLower_ph_iff] at hb
      rw [toLower_digit]
      exact hab.1 hb
    · intro ha
      rw [toLower_ph_iff] at ha
      rw [toLower_digit]
      exact hab.2 ha
  · rw [List.head?_map]
    intro h
    rcases Option.map_eq_some'.mp h with ⟨a, ha, hla⟩
    rw [toLower_ph_iff] at hla
    subst hla
    exact hh ha
  · rw [List.getLast?_map]
    intro h
    rcases Option.map_eq_some'.mp h with ⟨a, ha, hla⟩
    rw [toLower_ph_iff] at hla
    subst hla
    exact hl ha

/-- The W-block: in ASCII mode on an ASCII, placeholder-free base, every word
produced by `slugWords` is a good word. -/
theorem slugWords_good (env : UnicodeEnv) (st : Style)
    (hTr : ∀ s : List Char, (∀ c ∈ s, c.toNat < 128) → env.translit s = s)
    (hLoA : ∀ c : Char, c.toNat < 128 → env.uLower c = [c.toLower])
    (b : List Char) (hA : ∀ c ∈ b, c.toNat < 128) (hPH : VERSION_DOT ∉ b) :
    ∀ w ∈ slugWords env ⟨st, false⟩ b, GoodWord w := by
  intro w hw
  rw [slugWords_ku_false, hTr b hA] at hw
  have hA2 : ∀ c ∈ replaceBrackets b, c.toNat < 128 := by
    intro c hc
    rcases List.mem_map.mp hc with ⟨a, ha, rfl⟩
    by_cases hb : BRACKETS.contains a = true
    · rw [if_pos hb]
      decide
    · rw [if_neg hb]
      exact hA a ha
  have hPH2 : VERSION_DOT ∉ replaceBrackets b := by
    intro hc
    rcases List.mem_map.mp hc with ⟨a, ha, heq⟩
    by_cases hb : BRACKETS.contains a = true
    · rw [if_pos hb] at heq
      exact absurd heq (by decide)
    · rw [if_neg hb] at heq
      exact hPH (heq ▸ ha)
  rw [preserve_version_dots_eq, protectDots] at hw
  obtain ⟨hch3, hl3, hh3⟩ := pdAux_flank false (replaceBrackets b) hPH2
  have hh3' : (pdAux false (replaceBrackets b)).head? ≠ some VERSION_DOT := by
    intro h
    exact absurd (hh3 h) (by decide)
  rcases List.mem_map.mp hw with ⟨v, hv, rfl⟩
  rw [List.mem_filter] at hv
  obtain ⟨hvs, hvne⟩ := hv
  have hvne' : v ≠ [] := by simpa using hvne
  have hp : ∀ c, isSepChar env false c = true → c.isDigit = false :=
    fun c hc => sep_not_digit hc
  have hall : ∀ c ∈ v, c.isAlphanum = true ∨ c = VERSION_DOT := by
    intro c hc
    have := splitStr_chars (isSepChar env false) _ v hvs c hc
    simpa using isSepChar_false this
  have hvA : ∀ c ∈ v, c.toNat < 128 := by
    intro c hc
    rcases hall c hc with h1 | h1
    · exact alnum_ascii h1
    · subst h1
      decide
  rcases heq : splitStr (isSepChar env false) (pdAux false (replaceBrackets b)) with
    _ | ⟨s, ss⟩
  · exact absurd heq (splitStr_ne_nil _ _)
  rw [heq] at hvs
  obtain ⟨⟨hsch, hsl, hsh⟩, hrest⟩ :=
    splitStr_flank (isSepChar env false) hp _ s ss hch3 hl3 heq
  have hflank : List.Chain' RPH v ∧ v.head? ≠ some VERSION_DOT ∧
      v.getLast? ≠ some VERSION_DOT := by
    rcases List.mem_cons.mp hvs with h1 | h1
    · subst h1
      exact ⟨hsch, fun h => hh3' (hsh h), hsl⟩
    · exact hrest v h1
  rw [lowerWord_map hLoA v hvA]
  exact goodword_map_toLower hvne' hall hflank.1 hflank.2.1 hflank.2.2

theorem toLower_dot_iff (c : Char) : c.toLower = '.' ↔ c = '.' := by
  constructor
  · intro h
    rcases toLower_cases c with he | ⟨h1, h2, _⟩
    · rwa [he] at h
    · exact absurd (congrArg Char.toNat h) (by
        rw [show ('.').toNat = 46 from rfl]; omega)
  · intro h
    subst h
    rfl

theorem mem_pdAux {c : Char} : ∀ (b : Bool) (x : List Char), c ∈ pdAux b x →
    c ∈ x ∨ (c = VERSION_DOT ∧ '.' ∈ x)
  | b, [] => by
    intro h
    simp [pdAux] at h
  | b, a :: r => by
    intro h
    rw [pdAux] at h
    by_cases hc : ((a == '.') && b && headDigit r) = true
    · rw [if_pos hc] at h
      rcases List.mem_cons.mp h with h1 | h1
      · refine Or.inr ⟨h1, ?_⟩
        have ha : a = '.' := by
          simp only [Bool.and_eq_true, beq_iff_eq] at hc
          exact hc.1.1
        simp [ha]
      · rcases mem_pdAux false r h1 with h2 | ⟨h2, h3⟩
        · exact Or.inl (List.mem_cons_of_mem _ h2)
        · exact Or.inr ⟨h2, List.mem_cons_of_mem _ h3⟩
    · rw [if_neg hc] at h
      rcases List.mem_cons.mp h with h1 | h1
      · exact Or.inl (h1 ▸ List.mem_cons_self _ _)
      · rcases mem_pdAux a.isDigit r h1 with h2 | ⟨h2, h3⟩
        · exact Or.inl (List.mem_cons_of_mem _ h2)
        · exact Or.inr ⟨h2, List.mem_cons_of_mem _ h3⟩

theorem mem_splitStr {c : Char} (p : Char → Bool) : ∀ (l w : List Char),
    w ∈ splitStr p l → c ∈ w → c ∈ l
  | [] => by
    intro w hw hc
    rw [splitStr] at hw
    simp only [List.mem_singleton] at hw
    subst hw
    simp at hc
  | a :: r => by
    intro w hw hc
    rw [splitStr] at hw
    by_cases hp : p a = true
    · rw [if_pos hp] at hw
      rcases List.mem_cons.mp hw with h1 | h1
      · subst h1
        simp at hc
      · exact List.mem_cons_of_mem _ (mem_splitStr p r w h1 hc)
    · rw [if_neg hp] at hw
      rcases hss : splitStr p r with _ | ⟨s, ss⟩
      · exact absurd hss (splitStr_ne_nil _ _)
      · rw [hss] at hw
        rcases List.mem_cons.mp hw with h1 | h1
        · subst h1
          rcases List.mem_cons.mp hc with h2 | h2
          · exact h2 ▸ List.mem_cons_self _ _
          · exact List.mem_cons_of_mem _
              (mem_splitStr p r s (by rw [hss]; exact List.mem_cons_self _ _) h2)
        · exact List.mem_cons_of_mem _
            (mem_splitStr p r w (by rw [hss]; exact List.mem_cons_of_mem _ h1) hc)

theorem splitLastDot_none : ∀ l : List Char, (splitLastDot l = none ↔ '.' ∉ l)
  | [] => by simp [splitLastDot]
  | c :: r => by
    rw [splitLastDot]
    rcases h : splitLastDot r with _ | ⟨a, b⟩
    · have hr := (splitLastDot_none r).mp h
      by_cases hc : c = '.'
      · subst hc
        simp
      · simp [hc, hr, Ne.symm hc]
    · have hr : '.' ∈ r := by
        by_contra hn
        rw [← splitLastDot_none r] at hn
        rw [h] at hn
        exact absurd hn (by simp)
      simp [hr]

theorem splitLastDot_shape : ∀ {l a b : List Char}, splitLastDot l = some (a, b) →
    ∃ d, b = '.' :: d ∧ '.' ∉ d := by
  intro l
  induction l with
  | nil =>
    intro a b h
    simp [splitLastDot] at h
  | cons c r ih =>
    intro a b h
    rw [splitLastDot] at h
    rcases hr : splitLastDot r with _ | ⟨a', b'⟩
    · rw [hr] at h
      by_cases hc : c = '.'
      · rw [if_pos hc] at h
        simp only [Option.some.injEq, Prod.mk.injEq] at h
        exact ⟨r, by rw [← h.2, hc], (splitLastDot_none r).mp hr⟩
      · rw [if_neg hc] at h
        exact absurd h (by simp)
    · rw [hr] at h
      simp only [Option.some.injEq, Prod.mk.injEq] at h
      exact h.2 ▸ ih hr

theorem compound_shape : ∀ s ∈ COMPOUND, ∃ r5 : List Char,
    s = '.' :: 't' :: 'a' :: 'r' :: '.' :: r5 := by
  intro s hs
  simp only [COMPOUND, List.mem_cons, List.not_mem_nil, or_false] at hs
  rcases hs with rfl | rfl | rfl | rfl
  · exact ⟨['g', 'z'], rfl⟩
  · exact ⟨['b', 'z', '2'], rfl⟩
  · exact ⟨['x', 'z'], rfl⟩
  · exact ⟨['z', 's', 't'], rfl⟩

theorem compound_suffix_eq : ∀ s0 ∈ COMPOUND, ∀ s ∈ COMPOUND, s <:+ s0 → s = s0 := by
  decide

theorem ciEndsWith_iff {f suf : List Char} : ciEndsWith f suf = true ↔
    suf.length ≤ f.length ∧ (f.drop (f.length - suf.length)).map Char.toLower = suf := by
  rw [ciEndsWith]
  simp [Bool.and_eq_true]

theorem split_extension_eval1 {f : List Char}
    (h : (f.head? == some '.' && !(f.tail.contains '.')) = true) :
    split_extension f = ([], f) := by
  rw [split_extension, if_pos h]

theorem split_extension_eval2 {f suf : List Char}
    (h1 : (f.head? == some '.' && !(f.tail.contains '.')) = false)
    (h2 : COMPOUND.find? (fun e => ciEndsWith f e) = some suf) :
    split_extension f =
      (f.take (f.length - suf.length), f.drop (f.length - suf.length)) := by
  rw [split_extension, if_neg (by rw [h1]; simp), h2]

theorem split_extension_eval3 {f a b : List Char}
    (h1 : (f.head? == some '.' && !(f.tail.contains '.')) = false)
    (h2 : COMPOUND.find? (fun e => ciEndsWith f e) = none)
    (h3 : splitLastDot f = some (a, b)) :
    split_extension f = if a.isEmpty then (f, []) else (a, b) := by
  rw [split_extension, if_neg (by rw [h1]; simp), h2, h3]

theorem split_extension_eval4 {f : List Char}
    (h1 : (f.head? == some '.' && !(f.tail.contains '.')) = false)
    (h2 : COMPOUND.find? (fun e => ciEndsWith f e) = none)
    (h3 : splitLastDot f = none) :
    split_extension f = (f, []) := by
  rw [split_extension, if_neg (by rw [h1]; simp), h2, h3]

/-- Shape of the extension component of a `split_extension` with nonempty
base: empty, a final dotted segment, or a compound suffix up to ASCII case. -/
theorem ext_shape (f : List Char) (hbase : (split_extension f).1 ≠ []) :
    (split_extension f).2 = [] ∨
    (∃ d, (split_extension f).2 = '.' :: d ∧ '.' ∉ d) ∨
    (∃ suf ∈ COMPOUND, (split_extension f).2.map Char.toLower = suf) := by
  by_cases hb1 : (f.head? == some '.' && !(f.tail.contains '.')) = true
  · rw [split_extension_eval1 hb1] at hbase
    exact absurd rfl hbase
  · rw [Bool.not_eq_true] at hb1
    rcases hfind : COMPOUND.find? (fun e => ciEndsWith f e) with _ | suf
    · rcases hsld : splitLastDot f with _ | ⟨a, b⟩
      · rw [split_extension_eval4 hb1 hfind hsld]
        exact Or.inl rfl
      · rw [split_extension_eval3 hb1 hfind hsld]
        by_cases ha : a.isEmpty = true
        · rw [if_pos ha]
          exact Or.inl rfl
        · rw [if_neg ha]
          rcases splitLastDot_shape hsld with ⟨d, hd1, hd2⟩
          exact Or.inr (Or.inl ⟨d, hd1, hd2⟩)
    · rw [split_extension_eval2 hb1 hfind]
      refine Or.inr (Or.inr ⟨suf, List.mem_of_find?_eq_some hfind, ?_⟩)
      have hci := List.find?_some hfind
      rw [ciEndsWith_iff] at hci
      exact hci.2

theorem map_tar_dot {d r5 : List Char}
    (h : d.map Char.toLower = 't' :: 'a' :: 'r' :: '.' :: r5) : '.' ∈ d := by
  cases d with
  | nil => simp at h
  | cons x1 d1 =>
    rw [List.map_cons] at h
    injection h with h1 h
    cases d1 with
    | nil => simp at h
    | cons x2 d2 =>
      rw [List.map_cons] at h
      injection h with h2 h
      cases d2 with
      | nil => simp at h
      | cons x3 d3 =>
        rw [List.map_cons] at h
        injection h with h3 h
        cases d3 with
        | nil => simp at h
        | cons x4 d4 =>
          rw [List.map_cons] at h
          injection h with h4 h
          have hx4 : x4 = '.' := (toLower_dot_iff x4).mp h4
          subst hx4
          simp

theorem rd_suffix_contra {R m e r5 : List Char}
    (hch : List.Chain' RD R) (hl : R.getLast? ≠ some '.')
    (hmR : m <:+ R) (hm : m ≠ [])
    (hmap : (m ++ e).map Char.toLower = '.' :: 't' :: r5) : False := by
  cases m with
  | nil => exact hm rfl
  | cons cm m2 =>
    rw [List.cons_append, List.map_cons] at hmap
    injection hmap with h1 h2
    have hcm : cm = '.' := (toLower_dot_iff cm).mp h1
    subst hcm
    cases m2 with
    | nil =>
      obtain ⟨w, hw⟩ := hmR
      apply hl
      rw [← hw]
      exact List.getLast?_concat _
    | cons c1 m3 =>
      have hchm := hch.suffix hmR
      rw [List.chain'_cons] at hchm
      have hd : c1.isDigit = true := hchm.1.2 rfl
      rw [List.cons_append, List.map_cons] at h2
      injection h2 with h3 _
      have hnd : c1.isDigit = false := by
        rw [← toLower_digit, h3]
        decide
      rw [hnd] at hd
      exact absurd hd (by simp)

theorem splitLastDot_last : ∀ (x d : List Char), '.' ∉ d →
    splitLastDot (x ++ '.' :: d) = some (x, '.' :: d)
  | [], d => by
    intro hd
    rw [List.nil_append, splitLastDot, (splitLastDot_none d).mpr hd]
    simp
  | c :: x', d => by
    intro hd
    rw [List.cons_append, splitLastDot, splitLastDot_last x' d hd]

theorem map_dot_head {t r5 : List Char}
    (h : t.map Char.toLower = '.' :: r5) : ∃ t1, t = '.' :: t1 := by
  cases t with
  | nil => simp at h
  | cons c0 t1 =>
    rw [List.map_cons] at h
    injection h with h1 _
    exact ⟨t1, by rw [(toLower_dot_iff c0).mp h1]⟩

/-- The G-block: `split_extension` of an assembled name either realigns with
the assembly or returns an empty base (whole-name passthrough). -/
theorem split_extension_assembled
    (dp R e : List Char) (hdp : dp = [] ∨ dp = ['.'])
    (hR : R ≠ []) (hch : List.Chain' RD R) (hh : R.head? ≠ some '.')
    (hl : R.getLast? ≠ some '.')
    (he : (e = [] ∧ '.' ∉ R ∧ dp = []) ∨
          (∃ d, e = '.' :: d ∧ '.' ∉ d) ∨
          (∃ suf ∈ COMPOUND, e.map Char.toLower = suf)) :
    split_extension (dp ++ R ++ e) = (dp ++ R, e) ∨
    split_extension (dp ++ R ++ e) = ([], dp ++ R ++ e) := by
  have hS2ne : dp ++ R ≠ [] := by
    intro h
    rcases List.append_eq_nil.mp h with ⟨_, h2⟩
    exact hR h2
  have hesuf : e <:+ dp ++ R ++ e := ⟨dp ++ R, rfl⟩
  by_cases hb1 : (((dp ++ R ++ e).head? == some '.') &&
      !((dp ++ R ++ e).tail.contains '.')) = true
  · exact Or.inr (split_extension_eval1 hb1)
  · rw [Bool.not_eq_true] at hb1
    rcases hfind : COMPOUND.find? (fun x => ciEndsWith (dp ++ R ++ e) x) with _ | suf
    · rcases he with ⟨he0, hdotR, hdp0⟩ | ⟨d, hed, hd⟩ | ⟨suf0, hs0mem, hmap0⟩
      · subst he0
        subst hdp0
        have hsld : splitLastDot ([] ++ R ++ []) = none := by
          rw [List.nil_append, List.append_nil]
          exact (splitLastDot_none R).mpr hdotR
        rw [split_extension_eval4 hb1 hfind hsld]
        exact Or.inl (by simp)
      · subst hed
        have hsld : splitLastDot (dp ++ R ++ '.' :: d) = some (dp ++ R, '.' :: d) :=
          splitLastDot_last (dp ++ R) d hd
        rw [split_extension_eval3 hb1 hfind hsld]
        rw [if_neg (by simpa [List.isEmpty_iff] using hS2ne)]
        exact Or.inl rfl
      · exfalso
        have hcif := List.find?_eq_none.mp hfind suf0 hs0mem
        apply hcif
        rw [ciEndsWith_iff]
        have hle : suf0.length = e.length := by
          rw [← hmap0, List.length_map]
        constructor
        · rw [hle, List.length_append, List.length_append]
          omega
        · rw [show (dp ++ R ++ e).length - suf0.length = (dp ++ R).length from by
            rw [hle, List.length_append, List.length_append]; omega]
          rw [List.drop_left, hmap0]
    · have hci := List.find?_some hfind
      rw [ciEndsWith_iff] at hci
      obtain ⟨hlen, hmap⟩ := hci
      have hsufmem := List.mem_of_find?_eq_some hfind
      have htsuf : (dp ++ R ++ e).drop ((dp ++ R ++ e).length - suf.length) <:+
          dp ++ R ++ e := List.drop_suffix _ _
      have htlen : ((dp ++ R ++ e).drop ((dp ++ R ++ e).length - suf.length)).length =
          suf.length := by
        rw [List.length_drop]
        omega
      rw [split_extension_eval2 hb1 hfind]
      by_cases hteq : (dp ++ R ++ e).drop ((dp ++ R ++ e).length - suf.length) = e
      · left
        rw [hteq] at htlen
        rw [show (dp ++ R ++ e).length - suf.length = (dp ++ R).length from by
          rw [← htlen, List.length_append, List.length_append]; omega]
        rw [List.take_left, List.drop_left]
      · rcases compound_shape suf hsufmem with ⟨r5, hshape⟩
        rcases List.suffix_or_suffix_of_suffix htsuf hesuf with hte | het
        · exfalso
          rcases he with ⟨he0, _, _⟩ | ⟨d, hed, hd⟩ | ⟨suf0, hs0mem, hmap0⟩
          · subst he0
            exact hteq (List.suffix_nil.mp hte)
          · subst hed
            have hmap2 : ((dp ++ R ++ ('.' :: d)).drop
                ((dp ++ R ++ ('.' :: d)).length - suf.length)).map Char.toLower =
                '.' :: ('t' :: 'a' :: 'r' :: '.' :: r5) := by
              rw [hmap, hshape]
            obtain ⟨t1, ht1⟩ := map_dot_head hmap2
            obtain ⟨w, hw⟩ := hte
            cases w with
            | nil => exact hteq (by simpa using hw)
            | cons cw w' =>
              rw [List.cons_append] at hw
              injection hw with _ hw'
              apply hd
              rw [← hw']
              apply List.mem_append_right
              rw [ht1]
              exact List.mem_cons_self _ _
          · have hsufsuf : suf <:+ suf0 := by
              rw [← hmap, ← hmap0]
              exact hte.map Char.toLower
            have heq := compound_suffix_eq suf0 hs0mem suf hsufmem hsufsuf
            apply hteq
            refine hte.eq_of_length ?_
            rw [htlen, heq, ← hmap0, List.length_map]
        · obtain ⟨m, hm⟩ := het
          have hmne : m ≠ [] := by
            intro h0
            subst h0
            exact hteq (by simpa using hm.symm)
          obtain ⟨u, hu⟩ := htsuf
          rw [← hm, ← List.append_assoc] at hu
          have hum : u ++ m = dp ++ R := (List.append_inj' hu rfl).1
          have hmap3 : (m ++ e).map Char.toLower =
              '.' :: 't' :: 'a' :: 'r' :: '.' :: r5 := by
            rw [hm, hmap, hshape]
          rcases hdp with hdp0 | hdp1
          · exfalso
            subst hdp0
            rw [List.nil_append] at hum
            exact rd_suffix_contra hch hl ⟨u, hum⟩ hmne hmap3
          · subst hdp1
            cases u with
            | nil =>
              right
              rw [List.nil_append] at hum
              have hlenS : (['.'] ++ R ++ e).length = suf.length := by
                rw [← htlen, ← hm, hum]
              rw [show (['.'] ++ R ++ e).length - suf.length = 0 from by omega]
              simp
            | cons cu u' =>
              exfalso
              rw [List.cons_append] at hum
              injection hum with _ hum2
              exact rd_suffix_contra hch hl ⟨u', hum2⟩ hmne hmap3

theorem truncate_base_of_le {base ext : List Char} {m : Nat}
    (h : utf8Len base + utf8Len ext ≤ m) :
    truncate_base base ext m = base := by
  simp only [truncate_base]
  rw [if_pos (by omega)]

/-- The rebuilt base of `slugify`, before truncation: joined words with
version dots restored, with the leading dot of a dotfile re-attached. -/
def slugBase (env : UnicodeEnv) (opts : SlugifyOptions) (b : List Char) : List Char :=
  let s1 := restore_version_dots (joinStyle env opts.style (slugWords env opts b))
  if b.head? == some '.' then '.' :: s1 else s1

/-- `slugify` in its main branch: truncated rebuilt base plus extension. -/
theorem slugify_main_eq (env : UnicodeEnv) (f : List Char) (opts : SlugifyOptions)
    (hne : f.isEmpty = false) (hbase : (split_extension f).1 ≠ [])
    (hws : slugWords env opts (split_extension f).1 ≠ []) :
    slugify env f opts =
      truncate_base (slugBase env opts (split_extension f).1) (split_extension f).2
        MAX_FILENAME_BYTES ++ (split_extension f).2 := by
  simp only [slugify, slugBase]
  rw [hne]
  simp only [Bool.false_eq_true, if_false]
  rw [if_neg (by simpa [List.isEmpty_iff] using hbase)]
  rw [if_neg (by simpa [List.isEmpty_iff] using hws)]

/-- A pure extension re-slugs to itself: its own split has an empty base, so
`slugify` passes it through unchanged. -/
theorem ext_fixpoint (env : UnicodeEnv) (opts : SlugifyOptions) {e : List Char}
    (he : e = [] ∨ (∃ d, e = '.' :: d ∧ '.' ∉ d) ∨
          (∃ suf ∈ COMPOUND, e.map Char.toLower = suf)) :
    slugify env e opts = e := by
  rcases he with rfl | ⟨d, rfl, hd⟩ | ⟨suf, hsm, hmap⟩
  · rfl
  · have hb1 : ((('.' :: d).head? == some '.') && !(('.' :: d).tail.contains '.')) = true := by
      simp only [List.head?_cons, List.tail_cons, beq_self_eq_true, Bool.true_and,
        Bool.not_eq_true']
      simpa using hd
    rw [slugify]
    rw [if_neg (by simp)]
    rw [split_extension_eval1 hb1]
    simp
  · rcases compound_shape suf hsm with ⟨r5, hshape⟩
    have hmap1 : e.map Char.toLower = '.' :: ('t' :: 'a' :: 'r' :: '.' :: r5) := by
      rw [hmap, hshape]
    obtain ⟨e1, he1⟩ := map_dot_head hmap1
    have he1map : e1.map Char.toLower = 't' :: 'a' :: 'r' :: '.' :: r5 := by
      rw [he1, List.map_cons] at hmap1
      injection hmap1
    have hlen : e.length = suf.length := by
      rw [← hmap, List.length_map]
    have hb1 : ((e.head? == some '.') && !(e.tail.contains '.')) = false := by
      rw [he1]
      simp only [List.head?_cons, List.tail_cons, beq_self_eq_true, Bool.true_and,
        Bool.not_eq_true']
      simp [map_tar_dot he1map]
    have hsplit : split_extension e = ([], e) := by
      rcases hfind : COMPOUND.find? (fun x => ciEndsWith e x) with _ | suf2
      · exfalso
        apply List.find?_eq_none.mp hfind suf hsm
        rw [ciEndsWith_iff]
        refine ⟨by omega, ?_⟩
        rw [show e.length - suf.length = 0 from by omega, List.drop_zero, hmap]
      · have hci := List.find?_some hfind
        rw [ciEndsWith_iff] at hci
        obtain ⟨hlen2, hmap2⟩ := hci
        have hsuf2mem := List.mem_of_find?_eq_some hfind
        have hs2s : suf2 <:+ suf := by
          rw [← hmap2, ← hmap]
          exact (List.drop_suffix _ _).map Char.toLower
        have heq2 := compound_suffix_eq suf hsm suf2 hsuf2mem hs2s
        have hz : e.length - suf2.length = 0 := by
          rw [heq2]
          omega
        rw [split_extension_eval2 hb1 hfind, hz, List.take_zero, List.drop_zero]
    rw [slugify]
    rw [if_neg (by rw [he1]; simp)]
    rw [hsplit]
    simp

theorem dot_mem_restore {x : List Char} (h : '.' ∈ restore_version_dots x) :
    '.' ∈ x ∨ VERSION_DOT ∈ x := by
  rw [restore_version_dots] at h
  obtain ⟨d, hd, hc⟩ := List.mem_map.mp h
  by_cases hdp : d = VERSION_DOT
  · exact Or.inr (hdp ▸ hd)
  · rw [if_neg hdp] at hc
    exact Or.inl (hc ▸ hd)

/-- Flanking facts for the restored join of good words. -/
theorem assembled_flank (env : UnicodeEnv) (st : Style)
    (hst : st = Style.kebab ∨ st = Style.snake)
    (ws : List (List Char)) (hne : ws ≠ []) (hws : ∀ w ∈ ws, GoodWord w) :
    restore_version_dots (joinStyle env st ws) ≠ [] ∧
    List.Chain' RD (restore_version_dots (joinStyle env st ws)) ∧
    (restore_version_dots (joinStyle env st ws)).head? ≠ some '.' ∧
    (restore_version_dots (joinStyle env st ws)).getLast? ≠ some '.' := by
  have hsepph : styleSep st ≠ VERSION_DOT := by
    rcases hst with h | h <;> subst h <;> decide
  obtain ⟨hJch, hJh, hJl, hJne⟩ := intercalate_flank (styleSep st) hsepph ws hne hws
  have hJnodot : '.' ∉ List.intercalate [styleSep st] ws := by
    intro h
    rcases mem_intercalate _ ws h with h1 | ⟨w, hw, hcw⟩
    · rcases hst with h' | h' <;> subst h' <;> simp [styleSep] at h1
    · rcases ((hws w hw).2.1 '.' hcw).1 with ha | hp
      · rw [isAlphanum_iff] at ha
        have : ('.').toNat = 46 := rfl
        omega
      · exact absurd hp (by decide)
  rw [joinStyle_eq_intercalate env st hst]
  obtain ⟨hRch, hRh, hRl⟩ := restore_flank hJch hJh hJl hJnodot
  refine ⟨?_, hRch, hRh, hRl⟩
  intro h
  apply hJne
  rw [restore_eq_map] at h
  exact List.map_eq_nil.mp h

/-- Words of an ASCII, dot-free base contain no placeholder. -/
theorem slugWords_no_ph (env : UnicodeEnv) (st : Style)
    (hTr : ∀ s : List Char, (∀ c ∈ s, c.toNat < 128) → env.translit s = s)
    (hLoA : ∀ c : Char, c.toNat < 128 → env.uLower c = [c.toLower])
    (b : List Char) (hA : ∀ c ∈ b, c.toNat < 128) (hPH : VERSION_DOT ∉ b)
    (hdot : '.' ∉ b) :
    ∀ w ∈ slugWords env ⟨st, false⟩ b, VERSION_DOT ∉ w := by
  intro w hw hphw
  rw [slugWords_ku_false, hTr b hA] at hw
  have hb2 : ∀ c ∈ replaceBrackets b, c ∈ b ∨ c = ' ' := by
    intro c hc
    rcases List.mem_map.mp hc with ⟨a, ha, rfl⟩
    by_cases hbr : BRACKETS.contains a = true
    · rw [if_pos hbr]
      exact Or.inr rfl
    · rw [if_neg hbr]
      exact Or.inl ha
  rw [preserve_version_dots_eq, protectDots] at hw
  rcases List.mem_map.mp hw with ⟨v, hv, rfl⟩
  rw [List.mem_filter] at hv
  obtain ⟨hvs, _⟩ := hv
  have hall : ∀ c ∈ v, c.isAlphanum = true ∨ c = VERSION_DOT := by
    intro c hc
    have := splitStr_chars (isSepChar env false) _ v hvs c hc
    simpa using isSepChar_false this
  have hvA : ∀ c ∈ v, c.toNat < 128 := by
    intro c hc
    rcases hall c hc with h1 | h1
    · exact alnum_ascii h1
    · subst h1
      decide
  rw [lowerWord_map hLoA v hvA] at hphw
  rcases List.mem_map.mp hphw with ⟨a, ha, hla⟩
  rw [toLower_ph_iff] at hla
  subst hla
  have hb3 := mem_splitStr (isSepChar env false) _ v hvs ha
  rcases mem_pdAux false (replaceBrackets b) hb3 with h1 | ⟨_, h2⟩
  · rcases hb2 _ h1 with h3 | h3
    · exact hPH h3
    · exact absurd h3 (by decide)
  · rcases hb2 _ h2 with h3 | h3
    · exact hdot h3
    · exact absurd h3 (by decide)

/-- When no word carries a placeholder, the assembled base has no dot. -/
theorem assembled_no_dot (env : UnicodeEnv) (st : Style)
    (hst : st = Style.kebab ∨ st = Style.snake)
    (ws : List (List Char)) (hws : ∀ w ∈ ws, GoodWord w)
    (hnoph : ∀ w ∈ ws, VERSION_DOT ∉ w) :
    '.' ∉ restore_version_dots (joinStyle env st ws) := by
  intro h
  rw [joinStyle_eq_intercalate env st hst] at h
  rcases dot_mem_restore h with h1 | h1
  · rcases mem_intercalate _ ws h1 with h2 | ⟨w, hw, hcw⟩
    · rcases hst with h' | h' <;> subst h' <;> simp [styleSep] at h2
    · rcases ((hws w hw).2.1 '.' hcw).1 with ha | hp
      · rw [isAlphanum_iff] at ha
        have : ('.').toNat = 46 := rfl
        omega
      · exact absurd hp (by decide)
  · rcases mem_intercalate _ ws h1 with h2 | ⟨w, hw, hcw⟩
    · rcases hst with h' | h' <;> subst h' <;> exact absurd h2 (by decide)
    · exact hnoph w hw hcw

/-- Extension shapes, with the dot-free whole name recorded in the empty
case. -/
theorem ext_shape2 (f : List Char) (hbase : (split_extension f).1 ≠ []) :
    ((split_extension f).2 = [] ∧ '.' ∉ f) ∨
    (∃ d, (split_extension f).2 = '.' :: d ∧ '.' ∉ d) ∨
    (∃ suf ∈ COMPOUND, (split_extension f).2.map Char.toLower = suf) := by
  by_cases hb1 : (f.head? == some '.' && !(f.tail.contains '.')) = true
  · rw [split_extension_eval1 hb1] at hbase
    exact absurd rfl hbase
  · rw [Bool.not_eq_true] at hb1
    rcases hfind : COMPOUND.find? (fun e => ciEndsWith f e) with _ | suf
    · rcases hsld : splitLastDot f with _ | ⟨a, b⟩
      · rw [split_extension_eval4 hb1 hfind hsld]
        exact Or.inl ⟨rfl, (splitLastDot_none f).mp hsld⟩
      · rw [split_extension_eval3 hb1 hfind hsld]
        by_cases ha : a.isEmpty = true
        · exfalso
          rcases splitLastDot_shape hsld with ⟨d, hd1, hd2⟩
          have hfe : f = '.' :: d := by
            rw [← splitLastDot_append hsld, List.isEmpty_iff.mp ha, hd1,
              List.nil_append]
          rw [hfe] at hb1
          simp only [List.head?_cons, List.tail_cons, beq_self_eq_true,
            Bool.true_and, Bool.not_eq_false] at hb1
          exact hd2 (by simpa using hb1)
        · rw [if_neg ha]
          rcases splitLastDot_shape hsld with ⟨d, hd1, hd2⟩
          exact Or.inr (Or.inl ⟨d, hd1, hd2⟩)
    · rw [split_extension_eval2 hb1 hfind]
      refine Or.inr (Or.inr ⟨suf, List.mem_of_find?_eq_some hfind, ?_⟩)
      have hci := List.find?_some hfind
      rw [ciEndsWith_iff] at hci
      exact hci.2


/-- C1 (**corrected**): unconditional idempotence fails — camel style
re-lowercases the capital letters of its own output (see the counterexample) —
but `slugify` is idempotent for the kebab and snake styles in ASCII mode, on
ASCII filenames free of the placeholder character whose rebuilt name fits the
255-byte limit, over any environment whose transliterator and lower-casing
satisfy the ASCII contracts of `any_ascii` and `str::to_lowercase`. -/
theorem claim_C1_amended (env : UnicodeEnv) (st : Style) (f : List Char)
    (hst : st = Style.kebab ∨ st = Style.snake)
    (hTr : ∀ s : List Char, (∀ c ∈ s, c.toNat < 128) → env.translit s = s)
    (hLoA : ∀ c : Char, c.toNat < 128 → env.uLower c = [c.toLower])
    (hA : ∀ c ∈ f, c.toNat < 128) (hPH : VERSION_DOT ∉ f)
    (hfit : utf8Len (slugBase env ⟨st, false⟩ (split_extension f).1) +
        utf8Len (split_extension f).2 ≤ MAX_FILENAME_BYTES) :
    slugify env (slugify env f ⟨st, false⟩) ⟨st, false⟩ =
      slugify env f ⟨st, false⟩ := by
  by_cases hfe0 : f.isEmpty = true
  · rw [List.isEmpty_iff.mp hfe0]
    rfl
  rw [Bool.not_eq_true] at hfe0
  by_cases hbase : (split_extension f).1 = []
  · have hid : slugify env f ⟨st, false⟩ = f := by
      simp only [slugify]
      rw [hfe0]
      simp only [Bool.false_eq_true, if_false]
      rw [if_pos (by rw [hbase]; rfl)]
    rw [hid]
    exact hid
  have hbA : ∀ c ∈ (split_extension f).1, c.toNat < 128 := by
    intro c hc
    apply hA
    rw [← split_extension_append f]
    exact List.mem_append_left _ hc
  have hbPH : VERSION_DOT ∉ (split_extension f).1 := by
    intro hc
    apply hPH
    rw [← split_extension_append f]
    exact List.mem_append_left _ hc
  have hgood := slugWords_good env st hTr hLoA _ hbA hbPH
  by_cases hws0 : slugWords env ⟨st, false⟩ (split_extension f).1 = []
  · have hid : slugify env f ⟨st, false⟩ = (split_extension f).2 := by
      simp only [slugify]
      rw [hfe0]
      simp only [Bool.false_eq_true, if_false]
      rw [if_neg (by simp only [List.isEmpty_iff]; exact hbase)]
      rw [if_pos (by rw [hws0]; rfl)]
    rw [hid]
    apply ext_fixpoint
    rcases ext_shape2 f hbase with ⟨h1, _⟩ | h | h
    · exact Or.inl h1
    · exact Or.inr (Or.inl h)
    · exact Or.inr (Or.inr h)
  obtain ⟨ws, hwseq⟩ : ∃ x, slugWords env ⟨st, false⟩ (split_extension f).1 = x :=
    ⟨_, rfl⟩
  rw [hwseq] at hws0 hgood
  obtain ⟨R, hReq⟩ : ∃ x, restore_version_dots (joinStyle env st ws) = x := ⟨_, rfl⟩
  have hReq2 : restore_version_dots
      (joinStyle env (⟨st, false⟩ : SlugifyOptions).style ws) = R := hReq
  obtain ⟨hRne, hRch, hRh, hRl⟩ := assembled_flank env st hst ws hws0 hgood
  rw [hReq] at hRne hRch hRh hRl
  obtain ⟨dp, hdpor, hdpc⟩ :
      ∃ dp, (dp = [] ∨ dp = ['.']) ∧
        dp = (if (((split_extension f).1.head? == some '.') = true)
          then ['.'] else []) := by
    by_cases hdf : ((split_extension f).1.head? == some '.') = true
    · exact ⟨['.'], Or.inr rfl, by rw [if_pos hdf]⟩
    · exact ⟨[], Or.inl rfl, by rw [if_neg hdf]⟩
  have hsb : slugBase env ⟨st, false⟩ (split_extension f).1 = dp ++ R := by
    simp only [slugBase]
    rw [hwseq, hReq2, hdpc]
    by_cases hdf : ((split_extension f).1.head? == some '.') = true
    · rw [if_pos hdf, if_pos hdf]
      rfl
    · rw [if_neg hdf, if_neg hdf]
      rfl
  rw [hsb] at hfit
  have hshape : ((split_extension f).2 = [] ∧ '.' ∉ R ∧ dp = []) ∨
      (∃ d, (split_extension f).2 = '.' :: d ∧ '.' ∉ d) ∨
      (∃ suf ∈ COMPOUND, (split_extension f).2.map Char.toLower = suf) := by
    rcases ext_shape2 f hbase with ⟨h1, hnodotf⟩ | h | h
    · left
      have hnodotb : '.' ∉ (split_extension f).1 := by
        intro hc
        apply hnodotf
        rw [← split_extension_append f]
        exact List.mem_append_left _ hc
      have hnoph := slugWords_no_ph env st hTr hLoA _ hbA hbPH hnodotb
      rw [hwseq] at hnoph
      have hnodotR := assembled_no_dot env st hst ws hgood hnoph
      rw [hReq] at hnodotR
      refine ⟨h1, hnodotR, ?_⟩
      rw [hdpc, if_neg ?hcnd]
      case hcnd =>
        intro hx
        rw [beq_iff_eq] at hx
        exact hnodotb (List.mem_of_mem_head? hx)
    · exact Or.inr (Or.inl h)
    · exact Or.inr (Or.inr h)
  have hG := split_extension_assembled dp R (split_extension f).2
    hdpor hRne hRch hRh hRl hshape
  have hslug : slugify env f ⟨st, false⟩ = dp ++ R ++ (split_extension f).2 := by
    rw [slugify_main_eq env f ⟨st, false⟩ hfe0 hbase (by rw [hwseq]; exact hws0)]
    rw [hsb, truncate_base_of_le hfit]
  rw [hslug]
  have hSne : dp ++ R ++ (split_extension f).2 ≠ [] := by
    intro hx
    rcases List.append_eq_nil.mp hx with ⟨hx1, _⟩
    rcases List.append_eq_nil.mp hx1 with ⟨_, hx2⟩
    exact hRne hx2
  have hasm := slugWords_assembled env st hst hTr hLoA ws hws0 hgood
    ((split_extension f).1.head? == some '.')
  rw [← hdpc, hReq] at hasm
  rcases hG with hsplit | hsplit
  · -- aligned split: the second pass rebuilds the same name
    have hbase2 : (split_extension (dp ++ R ++ (split_extension f).2)).1 ≠ [] := by
      rw [hsplit]
      intro hx
      rcases List.append_eq_nil.mp hx with ⟨_, hx2⟩
      exact hRne hx2
    have hws2 : slugWords env ⟨st, false⟩
        (split_extension (dp ++ R ++ (split_extension f).2)).1 ≠ [] := by
      rw [hsplit]
      show slugWords env ⟨st, false⟩ (dp ++ R) ≠ []
      rw [hasm]
      exact hws0
    have hSe : (dp ++ R ++ (split_extension f).2).isEmpty = false := by
      cases h : dp ++ R ++ (split_extension f).2 with
      | nil => exact absurd h hSne
      | cons c t => rfl
    rw [slugify_main_eq env _ ⟨st, false⟩ hSe hbase2 hws2]
    rw [hsplit]
    show truncate_base (slugBase env ⟨st, false⟩ (dp ++ R)) (split_extension f).2
      MAX_FILENAME_BYTES ++ (split_extension f).2 = dp ++ R ++ (split_extension f).2
    have hsb2 : slugBase env ⟨st, false⟩ (dp ++ R) = dp ++ R := by
      simp only [slugBase]
      rw [hasm, hReq2, hdpc]
      by_cases hdf : ((split_extension f).1.head? == some '.') = true
      · rw [if_pos hdf]
        rw [if_pos (show ((['.'] ++ R).head? == some '.') = true from rfl)]
        rfl
      · rw [if_neg hdf]
        rw [List.nil_append, beq_eq_false_iff_ne.mpr hRh]
        simp
    rw [hsb2, truncate_base_of_le hfit]
  · -- degenerate split: whole-name passthrough
    simp only [slugify]
    rw [if_neg (by simp only [List.isEmpty_iff]; exact hSne)]
    rw [hsplit]
    simp

/-- C1, the counterexample: camel style is not idempotent — the capital letter
produced by camel joining (`a b.txt` → `aB.txt`) is lowered again by a second
pass, which yields `ab.txt`. -/
theorem claim_C1_counterexample :
    slugify asciiEnv (slugify asciiEnv "a b.txt".toList ⟨Style.camel, false⟩)
        ⟨Style.camel, false⟩ ≠
      slugify asciiEnv "a b.txt".toList ⟨Style.camel, false⟩ := by
  rw [slugify_eq_pd, slugify_eq_pd]
  decide

/-- C1, witness for the amended claim at a concrete input: kebab-style ASCII
idempotence on `My File.txt`. -/
theorem claim_C1_witness :
    slugify asciiEnv (slugify asciiEnv "My File.txt".toList ⟨Style.kebab, false⟩)
        ⟨Style.kebab, false⟩ =
      slugify asciiEnv "My File.txt".toList ⟨Style.kebab, false⟩ :=
  claim_C1_amended asciiEnv Style.kebab "My File.txt".toList
    (Or.inl rfl)
    (fun s hs => List.filter_eq_self.mpr (fun c hc => by simpa using hs c hc))
    (fun c _ => rfl)
    (by decide)
    (by decide)
    (by simp only [slugBase, slugWords_eq_pd]; decide)
